import Mathlib

/-!
Verification of the Farm map / map-reduce engine (`src/Farm.py`).

The Python module implements a bounded-parallelism map / map-reduce engine:

* `grouper(iterable, n)` chunks a stream into lists of size `n` (last chunk
  may be short; with `n <= 0` the whole stream comes out as one chunk).
* `Farm.parallel_process(x)` folds a batch through the list of stage
  functions, concatenating each stage's yielded result lists, and wraps the
  final list in a level-0 `TaskResult`.
* `Farm.map` either maps `parallel_process` over the batches (`nworkers ==
  1`) or drives a pool with a sliding window of async handles.
* `Farm.map_reduce` adds a level-indexed reduction tree: collected results
  are accumulated per level, a level reaching `reduce_batch` items is
  flushed by submitting a partial reduction (`wrap_reduce_function`), and a
  final `reduce_fn` call folds everything left over.

The embedding below is a direct translation.  The process pool is the one
external boundary: a submitted task's eventual `TaskResult` is computed
deterministically by `parallel_process` / `wrap_reduce_function`, so a
handle is represented by the `TaskResult` it will deliver, and the only
nondeterminism — which outstanding handle completes first — is an oracle
`σ : Nat → Nat` choosing the index collected by
`get_result_and_delete_handler` at each collection step.  The inner while
loop of the parallel `map_reduce` need not terminate (and we prove it does
not for `reduce_batch = 1`), so the parallel driver takes a fuel parameter
and returns `none` on exhaustion.  Executions also return a log:
`handleCount n` is recorded right after every append to
`results_handlers` (the points where the outstanding-handle count peaks),
`mainSnapshot sizes` records the per-level buffer sizes each time the
inner flush loop of the submission phase exits, and `drainSnapshot sizes`
records them after each drain-phase collection.
-/

/-- `TaskResult = namedtuple("TaskResult", ["data", "level"])` (Farm.py line 12). -/
structure TaskResult (α : Type) where
  data : List α
  level : Nat
deriving DecidableEq, Repr

/-- A stage function: consumes a batch, yields a list of result batches
(the Python stage generators, with the yielded stream reified as a list). -/
def Stage (α : Type) : Type := List α → List (List α)

/-- Accumulator-passing loop of `grouper` (Farm.py lines 17-25): `out` is the
chunk under construction; a chunk is emitted when its length reaches `n`,
and a nonempty trailing chunk is emitted at the end. -/
def grouperGo (n : Nat) : List α → List α → List (List α)
  | out, [] => if out.isEmpty then [] else [out]
  | out, x :: xs =>
    let out' := out ++ [x]
    if out'.length = n then out' :: grouperGo n [] xs else grouperGo n out' xs

/-- `grouper(iterable, n)` (Farm.py lines 17-25). -/
def grouper (l : List α) (n : Nat) : List (List α) := grouperGo n [] l

/-- `wrap_reduce_function(function, cur_input, result_level)` (Farm.py lines
28-32): applies the reducer to `cur_input` and wraps the single result at
the given level. -/
def wrap_reduce_function (function : List α → α) (cur_input : List α)
    (result_level : Nat) : TaskResult α :=
  ⟨[function cur_input], result_level⟩

/-- `Farm.parallel_process(x)` (Farm.py lines 96-106): folds the batch
through each stage in list order, replacing `x` by the concatenation of the
stage's yielded lists (`x = sum(func(x), [])`), and returns a level-0
`TaskResult`. -/
def parallel_process (functions : List (Stage α)) (x : List α) : TaskResult α :=
  ⟨functions.foldl (fun acc func => (func acc).flatten) x, 0⟩

/-- The flattened output of the composed pipeline on one batch:
`parallel_process` minus the `TaskResult` wrapper. -/
def pipeData (functions : List (Stage α)) (b : List α) : List α :=
  (parallel_process functions b).data

/-- The full flattened output of `map`: the input is chunked into batches of
`batchsize` and each batch's composed-pipeline output is concatenated. -/
def flatOut (functions : List (Stage α)) (batchsize : Nat) (input : List α) : List α :=
  ((grouper input batchsize).map (pipeData functions)).flatten

/-- Composition of a pipeline following the spec's words (section 3,
"Pipeline"): "its composition is the serial application of each stage's
concatenated output as the next stage's input".  Stated recursively to be
compared with the source-derived `parallel_process`. -/
def specComposedPipeline : List (Stage α) → List α → List α
  | [], b => b
  | f :: fs, b => specComposedPipeline fs ((f b).flatten)

/-- Configuration state of a `Farm` object (Farm.py lines 87-91). -/
structure Farm (α : Type) where
  functions : List (Stage α)
  nworkers : Nat
  batchsize : Nat

/-- `Farm.__init__` (Farm.py lines 73-94).  The two assertions on lines
93-94 are modelled as an `Except`: `assert batchsize > 0` fires first, then
`assert nworkers > 0`.  There is no parameter and no check for a reduction
batch size: `reduce_batch` is an argument of `map_reduce`. -/
def farmInit (functions : List (Stage α)) (nworkers batchsize : Int) :
    Except String (Farm α) :=
  if 0 < batchsize then
    if 0 < nworkers then .ok ⟨functions, nworkers.toNat, batchsize.toNat⟩
    else .error "nworkers must be greater than zero"
  else .error "batchsize must be greater than zero"

/-- The `nworkers == 1` branch of `Farm.map` (Farm.py lines 138-140): map
`parallel_process` over the batches and yield each result's `data`. -/
def mapSeq (functions : List (Stage α)) (batchsize : Nat) (input : List α) :
    List (List α) :=
  (grouper input batchsize).map (fun b => (parallel_process functions b).data)

/-- The `nworkers == 1` branch of `Farm.map_reduce` (Farm.py lines 179-186),
instrumented: the first component is the returned accumulator `out`
(`none` encodes Python's `None`), the second lists the argument of every
`reduce_fn` call in order.  Each loop iteration takes a chunk `y` of at
most `reduce_batch` `TaskResult`s, concatenates their `data` lists and
appends the running accumulator (when present) before reducing. -/
def mapReduceSeqRun (functions : List (Stage α)) (batchsize reduce_batch : Nat)
    (reduce_fn : List α → α) (input : List α) : Option α × List (List α) :=
  (grouper ((grouper input batchsize).map (parallel_process functions)) reduce_batch).foldl
    (fun acc y =>
      let arg := (y.map TaskResult.data).flatten ++
        (match acc.1 with | none => [] | some o => [o])
      (some (reduce_fn arg), acc.2 ++ [arg]))
    (none, [])

/-- One collection step: `get_result_and_delete_handler` (Farm.py lines
108-121) returns some completed handle's result and deletes that handle.
Which handle completes first is external scheduling, modelled by the oracle
`σ`: at collection step `t` the handle at index `σ t % length` is the first
to be ready.  (The poll-level behaviour of the routine, including its
exception handling, is modelled separately by
`get_result_and_delete_handler`.) -/
def pick (σ : Nat → Nat) (t : Nat) (hs : List (TaskResult α)) :
    TaskResult α × List (TaskResult α) :=
  (hs.getD (σ t % hs.length) ⟨[], 0⟩, hs.eraseIdx (σ t % hs.length))

/-- Observation log of a parallel execution.  `handleCount n` is recorded
immediately after each append to `results_handlers` (where the number of
outstanding handles peaks); `mainSnapshot` / `drainSnapshot` record the
per-level buffer sizes of `cached_results_tree` at the end of a
submission-loop iteration / drain-loop iteration. -/
inductive LogEntry where
  | handleCount (n : Nat)
  | mainSnapshot (sizes : List Nat)
  | drainSnapshot (sizes : List Nat)
deriving DecidableEq, Repr

/-- Accumulation into the reduction tree (Farm.py lines 209-211 and
226-228): `if len(cached_results_tree) == level: append([])` then
`cached_results_tree[level].extend(data)`. -/
def extendTree (tree : List (List α)) (level : Nat) (data : List α) :
    List (List α) :=
  if tree.length = level then
    (tree ++ [[]]).set level ((tree ++ [[]]).getD level [] ++ data)
  else
    tree.set level (tree.getD level [] ++ data)

/-- The inner while loop of the parallel `map_reduce` (Farm.py lines
219-231): while the buffer of the last collected result's level has at
least `reduce_batch` items, submit a partial reduction of that buffer at
the next level, clear the buffer, collect one more result and accumulate
it.  The loop need not terminate, so it burns one unit of fuel per
iteration and yields `none` on exhaustion; the log survives either way. -/
def reduceLoop (reduce_fn : List α → α) (reduce_batch : Nat) (σ : Nat → Nat) :
    Nat → Nat → Nat → List (TaskResult α) → List (List α) → List LogEntry →
    Option (Nat × List (TaskResult α) × List (List α)) × List LogEntry
  | 0, _, _, _, _, log => (none, log)
  | fuel + 1, t, level, handles, tree, log =>
    if reduce_batch ≤ (tree.getD level []).length then
      let handles' := handles ++ [wrap_reduce_function reduce_fn (tree.getD level []) (level + 1)]
      let tree' := tree.set level []
      let log' := log ++ [LogEntry.handleCount handles'.length]
      let p := pick σ t handles'
      reduceLoop reduce_fn reduce_batch σ fuel (t + 1) p.1.level p.2
        (extendTree tree' p.1.level p.1.data) log'
    else
      (some (t, handles, tree), log)

/-- The submission loop of the parallel `map_reduce` (Farm.py lines
204-231): for each remaining batch, collect one result, accumulate it into
the tree, submit the batch, then run the flush loop (`reduceLoop`). -/
def mrMainLoop (functions : List (Stage α)) (reduce_fn : List α → α)
    (reduce_batch : Nat) (σ : Nat → Nat) (fuel : Nat) :
    Nat → List (TaskResult α) → List (List α) → List LogEntry → List (List α) →
    Option (Nat × List (TaskResult α) × List (List α)) × List LogEntry
  | t, handles, tree, log, [] => (some (t, handles, tree), log)
  | t, handles, tree, log, task :: rest =>
    let p := pick σ t handles
    let tree' := extendTree tree p.1.level p.1.data
    let handles' := p.2 ++ [parallel_process functions task]
    let log' := log ++ [LogEntry.handleCount handles'.length]
    match reduceLoop reduce_fn reduce_batch σ fuel (t + 1) p.1.level handles' tree' log' with
    | (none, log'') => (none, log'')
    | (some (t', handles'', tree''), log'') =>
      mrMainLoop functions reduce_fn reduce_batch σ fuel t' handles'' tree''
        (log'' ++ [LogEntry.mainSnapshot (tree''.map List.length)]) rest

/-- The drain loop of the parallel `map_reduce` (Farm.py lines 235-240):
collect every outstanding handle and extend level-0 with its data.  No
flushing happens here.  Called with `fuel = handles.length`, which is
exactly enough since each iteration deletes one handle. -/
def mrDrain (σ : Nat → Nat) :
    Nat → Nat → List (TaskResult α) → List (List α) → List LogEntry →
    List (List α) × List LogEntry
  | 0, _, _, tree, log => (tree, log)
  | fuel + 1, t, handles, tree, log =>
    if handles.isEmpty then (tree, log)
    else
      let p := pick σ t handles
      let tree' := tree.set 0 (tree.getD 0 [] ++ p.1.data)
      mrDrain σ fuel (t + 1) p.2 tree'
        (log ++ [LogEntry.drainSnapshot (tree'.map List.length)])

/-- The `nworkers > 1` branch of `Farm.map_reduce` (Farm.py lines 187-245):
prime the window with up to `nworkers` batches, run the submission loop
over the remaining batches, drain the outstanding handles, and apply
`reduce_fn` once to the concatenation of all level buffers.  `none` means
the run did not complete within `fuel` iterations of some flush loop. -/
def mapReducePar (functions : List (Stage α)) (nworkers batchsize reduce_batch : Nat)
    (reduce_fn : List α → α) (σ : Nat → Nat) (fuel : Nat) (input : List α) :
    Option α × List LogEntry :=
  let tasks := grouper input batchsize
  let primed := (tasks.take nworkers).map (parallel_process functions)
  let primeLog := (List.range primed.length).map (fun i => LogEntry.handleCount (i + 1))
  match mrMainLoop functions reduce_fn reduce_batch σ fuel 0 primed [[]] primeLog
      (tasks.drop nworkers) with
  | (none, log) => (none, log)
  | (some (t, handles, tree), log) =>
    let d := mrDrain σ handles.length t handles tree log
    (some (reduce_fn d.1.flatten), d.2)

/-- Drain loop of the parallel `Farm.map` (Farm.py lines 157-159). -/
def mapDrain (σ : Nat → Nat) :
    Nat → Nat → List (TaskResult α) → List (List α)
  | 0, _, _ => []
  | fuel + 1, t, handles =>
    if handles.isEmpty then []
    else
      let p := pick σ t handles
      p.1.data :: mapDrain σ fuel (t + 1) p.2

/-- Steady-state loop of the parallel `Farm.map` (Farm.py lines 151-159):
for each remaining batch, collect one result, submit the batch, yield the
result; then drain.  The second component logs the handle count after each
submission. -/
def mapParGo (functions : List (Stage α)) (σ : Nat → Nat) :
    Nat → List (TaskResult α) → List (List α) → List (List α) × List Nat
  | t, handles, [] => (mapDrain σ handles.length t handles, [])
  | t, handles, task :: rest =>
    let p := pick σ t handles
    let handles' := p.2 ++ [parallel_process functions task]
    let r := mapParGo functions σ (t + 1) handles' rest
    (p.1.data :: r.1, handles'.length :: r.2)

/-- The `nworkers > 1` branch of `Farm.map` (Farm.py lines 141-159): prime
the window with up to `nworkers` batches, then run the steady-state loop
and drain.  Returns the yielded data batches and the handle counts observed
after every submission (priming included). -/
def mapPar (functions : List (Stage α)) (nworkers batchsize : Nat)
    (σ : Nat → Nat) (input : List α) : List (List α) × List Nat :=
  let tasks := grouper input batchsize
  let primed := (tasks.take nworkers).map (parallel_process functions)
  let r := mapParGo functions σ 0 primed (tasks.drop nworkers)
  (r.1, (List.range primed.length).map (· + 1) ++ r.2)

/-- Fold of a binary operation with unit over a list; with `op`
associative-commutative and `e` its unit this is the canonical
"associative and commutative reducer" of the Farm documentation, applied
to a list of inputs. -/
def mval (op : M → M → M) (e : M) (l : List M) : M := l.foldr op e

/-- A fuelled computation that never produces a value, however much fuel it
is given: the shallow-embedding rendering of an infinite loop. -/
def NeverReturns (f : Nat → Option α × List LogEntry) : Prop :=
  ∀ fuel, (f fuel).1 = none

/-- Outcome of one `handle.get(timeout)` call inside
`get_result_and_delete_handler`: the result is ready, the poll timed out,
or the worker-side task raised an exception `e`. -/
inductive PollOutcome (α ε : Type) where
  | ready (y : TaskResult α)
  | timeout
  | raised (e : ε)
deriving DecidableEq, Repr

/-- `Farm.get_result_and_delete_handler` (Farm.py lines 108-121) at the
poll level.  `outcomes t` is what the `t`-th `handle.get(self.timeout)`
call delivers.  The `except TimeoutError` clause catches only the timeout:
on `timeout` the index advances round-robin (`i = (i+1) %
len(results_handlers)`, the list length unchanged); on `ready` the handle
is deleted and the result returned; any other exception is uncaught and
propagates to the caller (`Except.error`).  Fuel bounds the number of
polls; `none` means the loop was still polling. -/
def get_result_and_delete_handler (outcomes : Nat → PollOutcome α ε)
    (handlers : List (TaskResult α)) :
    Nat → Nat → Nat → Option (Except ε (TaskResult α × List (TaskResult α)))
  | 0, _, _ => none
  | fuel + 1, t, i =>
    match outcomes t with
    | .ready y => some (.ok (y, handlers.eraseIdx i))
    | .timeout => get_result_and_delete_handler outcomes handlers fuel (t + 1)
        ((i + 1) % handlers.length)
    | .raised e => some (.error e)

/-- The always-pick-the-oldest completion schedule, used for concrete runs. -/
def sched0 : Nat → Nat := fun _ => 0

/-- Addition reducer on naturals, used for concrete runs. -/
def natSum : List Nat → Nat := fun l => l.foldr Nat.add 0

/-- The identity single-stage used for concrete runs: each batch is passed
through unchanged (as one yielded list). -/
def idStage : Stage Nat := fun l => [l]

/-- A batch-length-sensitive stage: type-correct for the stage contract of
the spec (a batch in, a list of result batches out) but dependent on the
grouping of the input. -/
def lenStage : Stage Nat := fun l => [[l.length]]

/-- An item-wise stage (one singleton result batch per input item), used
for concrete runs. -/
def succStage : Stage Nat := fun l => l.map (fun x => [x + 1])

/-- The flattened output of one stage on one batch: the concatenation of
the result batches it yields (`sum(func(x), [])` in `parallel_process`). -/
def stageFlat (f : Stage α) (xs : List α) : List α := (f xs).flatten

/-- All items an outstanding handle list will eventually deliver, in handle
order. -/
def handlesData (hs : List (TaskResult α)) : List α :=
  (hs.map TaskResult.data).flatten

/-! ### Basic facts about `grouper` -/

theorem grouperGo_flatten (n : Nat) (out l : List α) :
    (grouperGo n out l).flatten = out ++ l := by
  induction l generalizing out with
  | nil =>
    simp only [grouperGo]
    split
    · simp_all [List.isEmpty_iff]
    · simp
  | cons x xs ih =>
    simp only [grouperGo]
    split
    · simp [ih]
    · simp [ih]

theorem grouper_flatten (l : List α) (n : Nat) : (grouper l n).flatten = l := by
  simpa [grouper] using grouperGo_flatten n [] l

theorem grouper_ne_nil {l : List α} (n : Nat) (h : l ≠ []) : grouper l n ≠ [] := by
  intro hc
  apply h
  have hf := grouper_flatten l n
  rw [hc] at hf
  simpa using hf.symm

theorem grouperGo_length_le (n : Nat) (out l : List α) (hout : out.length < n) :
    ∀ c ∈ grouperGo n out l, c.length ≤ n := by
  induction l generalizing out with
  | nil =>
    intro c hc
    simp only [grouperGo] at hc
    split at hc
    · simp at hc
    · rw [List.mem_singleton] at hc
      subst hc
      omega
  | cons x xs ih =>
    intro c hc
    simp only [grouperGo] at hc
    split at hc
    · rcases List.mem_cons.mp hc with h | h
      · subst h
        omega
      · exact ih [] (by simp only [List.length_nil]; omega) c h
    · refine ih (out ++ [x]) ?_ c hc
      rename_i hne
      simp only [List.length_append, List.length_singleton] at hne ⊢
      omega

theorem grouper_length_le {l : List α} {n : Nat} (hn : 1 ≤ n) :
    ∀ c ∈ grouper l n, c.length ≤ n :=
  grouperGo_length_le n [] l (by simpa using hn)

theorem grouper_mem_mem {l : List α} {n : Nat} {c : List α} {x : α}
    (hc : c ∈ grouper l n) (hx : x ∈ c) : x ∈ l := by
  have hf := grouper_flatten l n
  rw [← hf]
  exact List.mem_flatten.mpr ⟨c, hc, hx⟩

/-! ### C2: constructor validation -/

/-- C2 (amended): the constructor accepts a configuration exactly when both
`nworkers` and `batchsize` are positive — these two are validated at
construction time.  `reduce_batch` is not a constructor parameter and is
validated nowhere (see `mapReduceSeq_accepts_reduce_batch_zero`). -/
theorem farmInit_ok_iff (functions : List (Stage α)) (nworkers batchsize : Int) :
    (∃ f, farmInit functions nworkers batchsize = .ok f) ↔
      (0 < nworkers ∧ 0 < batchsize) := by
  unfold farmInit
  by_cases hb : 0 < batchsize <;> by_cases hn : 0 < nworkers <;> simp [hb, hn]

/-- C2 counterexample: a non-positive `reduce_batch` is not rejected
anywhere — `map_reduce` with `reduce_batch = 0` runs to completion on a
nonempty input (the whole mapped stream arrives as a single chunk), so the
claim that it "never reaches map_reduce mid-run" is false. -/
theorem mapReduceSeq_accepts_reduce_batch_zero :
    (mapReduceSeqRun [idStage] 1 0 natSum [1, 2]).1 = some 3 := by
  rfl

/-! ### C8: the sequential `map` is the composed pipeline in input order -/

theorem parallel_process_eq_spec (functions : List (Stage α)) (b : List α) :
    (parallel_process functions b).data = specComposedPipeline functions b := by
  induction functions generalizing b with
  | nil => rfl
  | cons f fs ih =>
    simpa [parallel_process, specComposedPipeline] using ih ((f b).flatten)

/-- C8: with `nworkers = 1`, `map` yields exactly the spec's composed
pipeline applied to each input batch, in input order. -/
theorem mapSeq_eq_composed_in_order (functions : List (Stage α)) (batchsize : Nat)
    (input : List α) :
    mapSeq functions batchsize input =
      (grouper input batchsize).map (specComposedPipeline functions) := by
  unfold mapSeq
  simp only [parallel_process_eq_spec]

/-! ### C6: behaviour on empty input -/

/-- C6 (amended): on empty input, `map` yields nothing in both modes and the
parallel `map_reduce` returns `reduce_fn []`; but the sequential
`map_reduce` (`nworkers = 1`) returns `None` without ever invoking the
reducer. -/
theorem empty_input_behaviour (functions : List (Stage α))
    (nworkers batchsize reduce_batch : Nat) (reduce_fn : List α → α)
    (σ : Nat → Nat) (fuel : Nat) :
    mapSeq functions batchsize [] = [] ∧
    (mapPar functions nworkers batchsize σ []).1 = [] ∧
    (mapReducePar functions nworkers batchsize reduce_batch reduce_fn σ fuel []).1 =
      some (reduce_fn []) ∧
    mapReduceSeqRun functions batchsize reduce_batch reduce_fn [] = (none, []) := by
  refine ⟨rfl, ?_, ?_, rfl⟩
  · simp [mapPar, mapParGo, mapDrain, grouper, grouperGo]
  · simp [mapReducePar, mrMainLoop, mrDrain, grouper, grouperGo]

/-- C6 counterexample: with `workerCount = 1` and empty input, `map_reduce`
returns `None` (not the reducer's value on the empty list) and the reducer
is never invoked — the call list is empty. -/
theorem mapReduceSeq_empty_returns_none :
    mapReduceSeqRun [idStage] 1 1 natSum [] = (none, []) ∧
      (none : Option Nat) ≠ some (natSum []) :=
  ⟨rfl, by decide⟩

/-! ### C5: size of the reducer's arguments in the sequential map_reduce -/

theorem flatten_map_length_le {c : List (TaskResult α)} {k : Nat}
    (h : ∀ r ∈ c, r.data.length ≤ k) :
    ((c.map TaskResult.data).flatten).length ≤ c.length * k := by
  induction c with
  | nil => simp
  | cons r rs ih =>
    simp only [List.map_cons, List.flatten_cons, List.length_append, List.length_cons]
    have h1 := h r (by simp)
    have h2 := ih (fun x hx => h x (by simp [hx]))
    have h3 : (rs.length + 1) * k = rs.length * k + k := by ring
    omega

theorem seq_calls_fold (reduce_fn : List α → α) (B : Nat) :
    ∀ (chunks : List (List (TaskResult α))) (acc : Option α × List (List α)),
      (∀ a ∈ acc.2, a.length ≤ B + 1) →
      (∀ c ∈ chunks, ((c.map TaskResult.data).flatten).length ≤ B) →
      ∀ a ∈ (chunks.foldl
        (fun acc y =>
          let arg := (y.map TaskResult.data).flatten ++
            (match acc.1 with | none => [] | some o => [o])
          (some (reduce_fn arg), acc.2 ++ [arg])) acc).2,
        a.length ≤ B + 1 := by
  intro chunks
  induction chunks with
  | nil =>
    intro acc hacc _ a ha
    exact hacc a (by simpa using ha)
  | cons c cs ih =>
    intro acc hacc hch a ha
    rw [List.foldl_cons] at ha
    refine ih _ ?_ (fun d hd => hch d (by simp [hd])) a ha
    intro b hb
    simp only at hb
    rcases List.mem_append.mp hb with h | h
    · exact hacc b h
    · rw [List.mem_singleton] at h
      subst h
      have h1 := hch c (by simp)
      have h2 : (match acc.1 with | none => ([] : List α) | some o => [o]).length ≤ 1 := by
        cases acc.1 <;> simp
      rw [List.length_append]
      omega

/-- C5 (amended): in the sequential `map_reduce` every reducer call receives
the concatenated data of at most `reduce_batch` mapped batches plus, when
present, the running accumulator.  Hence if every batch's pipeline output
has at most `k` items, every call receives at most `reduce_batch * k + 1`
items; the claim's bound `reduce_batch + 1` is the special case `k = 1`
(one output item per batch), not the general one. -/
theorem mapReduceSeq_call_bound (functions : List (Stage α))
    (batchsize reduce_batch k : Nat) (reduce_fn : List α → α) (input : List α)
    (hrb : 1 ≤ reduce_batch)
    (hk : ∀ b ∈ grouper input batchsize, (parallel_process functions b).data.length ≤ k) :
    ∀ arg ∈ (mapReduceSeqRun functions batchsize reduce_batch reduce_fn input).2,
      arg.length ≤ reduce_batch * k + 1 := by
  unfold mapReduceSeqRun
  apply seq_calls_fold reduce_fn (reduce_batch * k)
  · intro a ha
    simp at ha
  · intro c hc
    have hlen := grouper_length_le hrb _ hc
    have hmem : ∀ r ∈ c, r.data.length ≤ k := by
      intro r hr
      have hrm := grouper_mem_mem hc hr
      rcases List.mem_map.mp hrm with ⟨b, hb, rfl⟩
      exact hk b hb
    calc ((c.map TaskResult.data).flatten).length
        ≤ c.length * k := flatten_map_length_le hmem
      _ ≤ reduce_batch * k := Nat.mul_le_mul_right k hlen

theorem mapReduceSeq_call_bound_witness :
    ((1 ≤ 2 ∧ ∀ b ∈ grouper [1, 2, 3] 1, (parallel_process [idStage] b).data.length ≤ 1) ∧
      ∀ arg ∈ (mapReduceSeqRun [idStage] 1 2 natSum [1, 2, 3]).2,
        arg.length ≤ 2 * 1 + 1) :=
  ⟨⟨by decide, by decide⟩,
    mapReduceSeq_call_bound [idStage] 1 2 1 natSum [1, 2, 3] (by decide) (by decide)⟩

/-- C5 counterexample: with `batchsize = 2`, `reduce_batch = 1` and the
identity pipeline on input `[1, 2, 3, 4]`, the second reducer call receives
`[3, 4, accumulator]` — three items, exceeding the claimed bound
`reduce_batch + 1 = 2`. -/
theorem mapReduceSeq_call_exceeds_bound :
    ((mapReduceSeqRun [idStage] 2 1 natSum [1, 2, 3, 4]).2.all
      (fun arg => arg.length ≤ 1 + 1)) = false := by
  rfl

/-! ### Permutation toolkit -/

theorem perm_append_swap (A B C : List α) :
    List.Perm (A ++ (B ++ C)) (B ++ (A ++ C)) := by
  rw [← List.append_assoc, ← List.append_assoc]
  exact List.Perm.append_right C List.perm_append_comm

theorem flatten_perm_of_perm {l1 l2 : List (List α)} (h : List.Perm l1 l2) :
    List.Perm l1.flatten l2.flatten := by
  induction h with
  | nil => simp
  | cons x _ ih => simpa using List.Perm.append_left x ih
  | swap x y t => simpa using perm_append_swap y x t.flatten
  | trans _ _ ih1 ih2 => exact ih1.trans ih2

theorem pick_perm {hs : List (TaskResult α)} (σ : Nat → Nat) (t : Nat) (h : hs ≠ []) :
    List.Perm hs ((pick σ t hs).1 :: (pick σ t hs).2) := by
  have hlen : 0 < hs.length := List.length_pos.mpr h
  have hilt : σ t % hs.length < hs.length := Nat.mod_lt _ hlen
  have h1 : (pick σ t hs).1 = hs[σ t % hs.length] :=
    List.getD_eq_getElem hs ⟨[], 0⟩ hilt
  have h2 : (pick σ t hs).2 =
      hs.take (σ t % hs.length) ++ hs.drop (σ t % hs.length + 1) := by
    simp [pick, List.eraseIdx_eq_take_drop_succ]
  rw [h1, h2]
  have hdecomp : hs = hs.take (σ t % hs.length) ++
      hs[σ t % hs.length] :: hs.drop (σ t % hs.length + 1) := by
    conv_lhs => rw [← List.take_append_drop (σ t % hs.length) hs]
    rw [List.drop_eq_getElem_cons hilt]
  conv_lhs => rw [hdecomp]
  exact List.perm_middle

theorem pick_mem {hs : List (TaskResult α)} (σ : Nat → Nat) (t : Nat) (h : hs ≠ []) :
    (pick σ t hs).1 ∈ hs :=
  ((pick_perm σ t h).mem_iff).mpr (by simp)

theorem pick_sub {hs : List (TaskResult α)} (σ : Nat → Nat) (t : Nat) (h : hs ≠ [])
    {x : TaskResult α} (hx : x ∈ (pick σ t hs).2) : x ∈ hs :=
  ((pick_perm σ t h).mem_iff).mpr (by simp [hx])

theorem pick_length {hs : List (TaskResult α)} (σ : Nat → Nat) (t : Nat) (h : hs ≠ []) :
    ((pick σ t hs).2).length + 1 = hs.length := by
  have := (pick_perm σ t h).length_eq
  simpa [Nat.add_comm] using this.symm

theorem handlesData_pick {hs : List (TaskResult α)} (σ : Nat → Nat) (t : Nat)
    (h : hs ≠ []) :
    List.Perm (handlesData hs) ((pick σ t hs).1.data ++ handlesData (pick σ t hs).2) := by
  have hp := pick_perm σ t h
  have := flatten_perm_of_perm (hp.map TaskResult.data)
  simpa [handlesData] using this

/-! ### Fold of an associative-commutative operation with unit -/

theorem mval_append (op : M → M → M) (e : M)
    (ha : ∀ a b c, op (op a b) c = op a (op b c)) (hid : ∀ a, op e a = a)
    (xs ys : List M) :
    mval op e (xs ++ ys) = op (mval op e xs) (mval op e ys) := by
  induction xs with
  | nil => simp [mval, hid]
  | cons x xs ih =>
    simp only [mval, List.cons_append, List.foldr_cons] at ih ⊢
    rw [ih, ← ha]

theorem mval_singleton (op : M → M → M) (e : M)
    (hc : ∀ a b, op a b = op b a) (hid : ∀ a, op e a = a) (x : M) :
    mval op e [x] = x := by
  show op x e = x
  rw [hc]
  exact hid x

theorem mval_perm (op : M → M → M) (e : M)
    (ha : ∀ a b c, op (op a b) c = op a (op b c)) (hc : ∀ a b, op a b = op b a)
    {xs ys : List M} (h : List.Perm xs ys) :
    mval op e xs = mval op e ys := by
  have hlc : ∀ a b c, op a (op b c) = op b (op a c) := by
    intro a b c
    rw [← ha, hc a b, ha]
  induction h with
  | nil => rfl
  | cons x _ ih =>
    simp only [mval, List.foldr_cons] at ih ⊢
    rw [ih]
  | swap x y t => exact hlc y x (mval op e t)
  | trans _ _ ih1 ih2 => exact ih1.trans ih2

/-! ### C9: batching never changes the multiset of `map` results -/

theorem stageFlat_nil_of_hom {f : Stage α}
    (hom : ∀ xs ys, List.Perm (stageFlat f (xs ++ ys)) (stageFlat f xs ++ stageFlat f ys)) :
    stageFlat f [] = [] := by
  have h := (hom [] []).length_eq
  simp only [List.append_nil, List.length_append] at h
  exact List.eq_nil_of_length_eq_zero (by omega)

theorem stageFlat_perm_of_hom {f : Stage α}
    (hom : ∀ xs ys, List.Perm (stageFlat f (xs ++ ys)) (stageFlat f xs ++ stageFlat f ys))
    {xs ys : List α} (h : List.Perm xs ys) :
    List.Perm (stageFlat f xs) (stageFlat f ys) := by
  induction h with
  | nil => exact List.Perm.refl _
  | @cons x l1 l2 _ ih =>
    have h1 := hom [x] l1
    have h2 := hom [x] l2
    simp only [List.singleton_append] at h1 h2
    exact h1.trans ((List.Perm.append_left _ ih).trans h2.symm)
  | @swap x y t =>
    have h1 := hom [y] (x :: t)
    have h2 := hom [x] t
    have h3 := hom [x] (y :: t)
    have h4 := hom [y] t
    simp only [List.singleton_append] at h1 h2 h3 h4
    refine h1.trans ?_
    refine (List.Perm.append_left _ h2).trans ?_
    refine (perm_append_swap _ _ _).trans ?_
    exact (List.Perm.append_left _ h4.symm).trans h3.symm
  | trans _ _ ih1 ih2 => exact ih1.trans ih2

theorem pipeData_cons (f : Stage α) (fs : List (Stage α)) (xs : List α) :
    pipeData (f :: fs) xs = pipeData fs (stageFlat f xs) := rfl

theorem pipeData_nil_stage (xs : List α) : pipeData ([] : List (Stage α)) xs = xs := rfl

theorem pipeData_perm {fs : List (Stage α)}
    (hom : ∀ f ∈ fs, ∀ xs ys,
      List.Perm (stageFlat f (xs ++ ys)) (stageFlat f xs ++ stageFlat f ys))
    {xs ys : List α} (h : List.Perm xs ys) :
    List.Perm (pipeData fs xs) (pipeData fs ys) := by
  induction fs generalizing xs ys with
  | nil => exact h
  | cons f fs ih =>
    rw [pipeData_cons, pipeData_cons]
    exact ih (fun g hg => hom g (by simp [hg]))
      (stageFlat_perm_of_hom (hom f (by simp)) h)

theorem pipeData_hom {fs : List (Stage α)}
    (hom : ∀ f ∈ fs, ∀ xs ys,
      List.Perm (stageFlat f (xs ++ ys)) (stageFlat f xs ++ stageFlat f ys))
    (xs ys : List α) :
    List.Perm (pipeData fs (xs ++ ys)) (pipeData fs xs ++ pipeData fs ys) := by
  induction fs generalizing xs ys with
  | nil => exact List.Perm.refl _
  | cons f fs ih =>
    rw [pipeData_cons, pipeData_cons, pipeData_cons]
    have h2 : List.Perm (pipeData fs (stageFlat f (xs ++ ys)))
        (pipeData fs (stageFlat f xs ++ stageFlat f ys)) :=
      pipeData_perm (fun g hg => hom g (by simp [hg])) (hom f (by simp) xs ys)
    exact h2.trans (ih (fun g hg => hom g (by simp [hg])) (stageFlat f xs) (stageFlat f ys))

theorem pipeData_nil_input {fs : List (Stage α)}
    (hom : ∀ f ∈ fs, ∀ xs ys,
      List.Perm (stageFlat f (xs ++ ys)) (stageFlat f xs ++ stageFlat f ys)) :
    pipeData fs ([] : List α) = [] := by
  induction fs with
  | nil => rfl
  | cons f fs ih =>
    rw [pipeData_cons, stageFlat_nil_of_hom (hom f (by simp))]
    exact ih (fun g hg => hom g (by simp [hg]))

theorem batched_flat_perm {fs : List (Stage α)}
    (hom : ∀ f ∈ fs, ∀ xs ys,
      List.Perm (stageFlat f (xs ++ ys)) (stageFlat f xs ++ stageFlat f ys))
    (cs : List (List α)) :
    List.Perm ((cs.map (pipeData fs)).flatten) (pipeData fs cs.flatten) := by
  induction cs with
  | nil =>
    simp [pipeData_nil_input hom]
  | cons c cs ih =>
    simp only [List.map_cons, List.flatten_cons]
    exact ((List.Perm.append_left _ ih).trans (pipeData_hom hom c cs.flatten).symm)

/-- C9 (amended): for every pipeline whose stages are batching-insensitive —
each stage's flattened output on a concatenation of two batches is a
permutation of the concatenation of its flattened outputs on the parts —
the multiset of flattened `map` results is independent of the batch size.
The bare stage contract of the spec (a list in, result batches out) does
not imply this condition (see `map_multiset_batch_dependent`). -/
theorem map_multiset_batch_invariant (fs : List (Stage α)) (B : Nat) (input : List α)
    (hom : ∀ f ∈ fs, ∀ xs ys,
      List.Perm (stageFlat f (xs ++ ys)) (stageFlat f xs ++ stageFlat f ys)) :
    (↑(flatOut fs B input) : Multiset α) = ↑(flatOut fs 1 input) := by
  rw [Multiset.coe_eq_coe]
  have h1 := batched_flat_perm hom (grouper input B)
  have h2 := batched_flat_perm hom (grouper input 1)
  rw [grouper_flatten] at h1 h2
  exact h1.trans h2.symm

theorem map_multiset_batch_invariant_witness :
    (∀ f ∈ [succStage], ∀ xs ys,
      List.Perm (stageFlat f (xs ++ ys)) (stageFlat f xs ++ stageFlat f ys)) ∧
    (↑(flatOut [succStage] 2 [1, 2, 3]) : Multiset Nat) = ↑(flatOut [succStage] 1 [1, 2, 3]) := by
  have hom : ∀ f ∈ [succStage], ∀ xs ys,
      List.Perm (stageFlat f (xs ++ ys)) (stageFlat f xs ++ stageFlat f ys) := by
    intro f hf xs ys
    rw [List.mem_singleton] at hf
    subst hf
    simp [stageFlat, succStage]
  exact ⟨hom, map_multiset_batch_invariant [succStage] 2 [1, 2, 3] hom⟩

/-- C9 counterexample: a stage that reports the length of its input batch
satisfies the spec's literal stage contract, yet batch size 2 and batch
size 1 give different result multisets on input `[0, 0]`. -/
theorem map_multiset_batch_dependent :
    (↑(flatOut [lenStage] 2 [0, 0]) : Multiset Nat) ≠ ↑(flatOut [lenStage] 1 [0, 0]) := by
  decide

/-! ### C10: only the poll timeout is treated as transient -/

/-- C10: `get_result_and_delete_handler` catches only the poll-timeout
condition.  If the polls time out for a while and then some poll delivers a
worker-side exception, the routine stops and propagates that exception to
its caller (`map` / `map_reduce` — which do not catch it) instead of
treating it as non-readiness and polling on; a `ready` outcome is the only
other way out of the loop. -/
theorem get_result_propagates (outcomes : Nat → PollOutcome α ε)
    (handlers : List (TaskResult α)) (T fuel t0 i : Nat) (e : ε)
    (hbefore : ∀ u, u < T → outcomes (t0 + u) = .timeout)
    (hT : outcomes (t0 + T) = .raised e)
    (hfuel : T < fuel) :
    get_result_and_delete_handler outcomes handlers fuel t0 i =
      some (.error e) := by
  induction T generalizing fuel t0 i with
  | zero =>
    cases fuel with
    | zero => omega
    | succ n =>
      simp only [get_result_and_delete_handler]
      rw [show t0 + 0 = t0 from rfl] at hT
      rw [hT]
  | succ T ih =>
    cases fuel with
    | zero => omega
    | succ n =>
      simp only [get_result_and_delete_handler]
      have h0 : outcomes t0 = .timeout := by
        simpa using hbefore 0 (by omega)
      rw [h0]
      exact ih n (t0 + 1) ((i + 1) % handlers.length)
        (fun u hu => by
          rw [show t0 + 1 + u = t0 + (u + 1) by omega]
          exact hbefore (u + 1) (by omega))
        (by rw [show t0 + 1 + T = t0 + (T + 1) by omega]; exact hT)
        (by omega)

theorem get_result_propagates_witness :
    get_result_and_delete_handler
      (fun t => if t < 1 then (PollOutcome.timeout : PollOutcome Nat String)
        else .raised "boom")
      [⟨[1], 0⟩] 3 0 0 = some (.error "boom") :=
  get_result_propagates _ _ 1 3 0 0 "boom"
    (fun u hu => by
      have hu0 : u = 0 := by omega
      subst hu0
      rfl)
    (by rfl) (by omega)

/-! ### Reduction-tree bookkeeping -/

theorem getD_set_self (l : List (List α)) (i : Nat) (v : List α) (h : i < l.length) :
    (l.set i v).getD i [] = v := by
  rw [List.getD_eq_getElem?_getD, List.getElem?_set]
  simp [h]

theorem getD_set_other (l : List (List α)) (i j : Nat) (v : List α) (h : i ≠ j) :
    (l.set i v).getD j [] = l.getD j [] := by
  rw [List.getD_eq_getElem?_getD, List.getElem?_set, List.getD_eq_getElem?_getD]
  simp [h]

theorem getD_len_le (l : List (List α)) (i : Nat) (h : l.length ≤ i) :
    l.getD i [] = [] := by
  rw [List.getD_eq_getElem?_getD, List.getElem?_len_le h]
  rfl

theorem getD_lt_of_ne_nil (l : List (List α)) (i : Nat) (h : l.getD i [] ≠ []) :
    i < l.length := by
  by_contra hc
  exact h (getD_len_le l i (by omega))

theorem getD_append_ne (l : List (List α)) (i : Nat) (h : i ≠ l.length) :
    (l ++ [[]]).getD i [] = l.getD i [] := by
  rcases Nat.lt_or_ge i l.length with hlt | hge
  · rw [List.getD_eq_getElem?_getD, List.getElem?_append_left hlt,
      List.getD_eq_getElem?_getD]
  · rw [getD_len_le _ _ (by simp; omega), getD_len_le _ _ hge]

theorem extendTree_length_ge (tree : List (List α)) (level : Nat) (data : List α) :
    tree.length ≤ (extendTree tree level data).length := by
  unfold extendTree
  split <;> simp

theorem extendTree_length_pos (tree : List (List α)) (level : Nat) (data : List α)
    (h : 1 ≤ tree.length) : 1 ≤ (extendTree tree level data).length := by
  have := extendTree_length_ge tree level data
  omega

theorem extendTree_getD_self (tree : List (List α)) (level : Nat) (data : List α)
    (h : level ≤ tree.length) :
    (extendTree tree level data).getD level [] = tree.getD level [] ++ data := by
  unfold extendTree
  split
  · rename_i heq
    have hlt : level < (tree ++ [[]]).length := by simp; omega
    rw [getD_set_self _ _ _ hlt]
    have h1 : (tree ++ [[]]).getD level [] = [] := by
      rw [List.getD_eq_getElem?_getD, ← heq, List.getElem?_concat_length]
      rfl
    have h2 : tree.getD level [] = [] := getD_len_le tree level (by omega)
    rw [h1, h2]
  · rename_i hne
    have hlt : level < tree.length := by omega
    rw [getD_set_self _ _ _ hlt]

theorem extendTree_getD_other (tree : List (List α)) (level j : Nat) (data : List α)
    (h : j ≠ level) :
    (extendTree tree level data).getD j [] = tree.getD j [] := by
  unfold extendTree
  split
  · rename_i heq
    rw [getD_set_other _ _ _ _ (fun hx => h hx.symm), getD_append_ne _ _ (by omega)]
  · rw [getD_set_other _ _ _ _ (fun hx => h hx.symm)]

theorem flatten_decompose (l : List (List α)) (i : Nat) (h : i < l.length) :
    l.flatten = (l.take i).flatten ++ (l[i] ++ (l.drop (i + 1)).flatten) := by
  have h1 : l.take i ++ l[i] :: l.drop (i + 1) = l := by
    conv_rhs => rw [← List.take_append_drop i l, List.drop_eq_getElem_cons h]
  conv_lhs => rw [← h1]
  rw [List.flatten_append, List.flatten_cons]

theorem flatten_set_getD_append_perm (l : List (List α)) (i : Nat) (d : List α)
    (h : i < l.length) :
    List.Perm ((l.set i (l.getD i [] ++ d)).flatten) (l.flatten ++ d) := by
  have hset := List.set_eq_take_cons_drop (l.getD i [] ++ d) h
  rw [hset, flatten_decompose l i h]
  rw [List.getD_eq_getElem l [] h]
  simp only [List.flatten_append, List.flatten_cons, List.append_assoc]
  refine List.Perm.append_left _ ?_
  refine (List.Perm.append_left _ ?_).trans (List.Perm.refl _)
  exact List.perm_append_comm

theorem extendTree_flatten_perm (tree : List (List α)) (level : Nat) (data : List α)
    (h : level ≤ tree.length) :
    List.Perm ((extendTree tree level data).flatten) (tree.flatten ++ data) := by
  unfold extendTree
  split
  · rename_i heq
    have hlt : level < (tree ++ [[]]).length := by simp; omega
    have hgd : (tree ++ [[]]).getD level [] = [] := by
      rw [List.getD_eq_getElem?_getD, ← heq, List.getElem?_concat_length]
      rfl
    rw [hgd]
    have hp := flatten_set_getD_append_perm (tree ++ [[]]) level data hlt
    rw [hgd] at hp
    simpa [List.flatten_append] using hp
  · rename_i hne
    exact flatten_set_getD_append_perm tree level data (by omega)

theorem tree_flatten_clear_perm (tree : List (List α)) (level : Nat) :
    List.Perm (tree.flatten) ((tree.set level []).flatten ++ tree.getD level []) := by
  rcases Nat.lt_or_ge level tree.length with hlt | hge
  · have hset := List.set_eq_take_cons_drop ([] : List α) hlt
    rw [hset, flatten_decompose tree level hlt, List.getD_eq_getElem tree [] hlt]
    simp only [List.flatten_append, List.flatten_cons, List.nil_append, List.append_assoc]
    refine List.Perm.append_left _ ?_
    exact List.perm_append_comm
  · rw [List.set_eq_of_length_le hge, getD_len_le tree level hge]
    simp

/-! ### C1: the outstanding-handle window -/

theorem mapParGo_counts (functions : List (Stage α)) (σ : Nat → Nat) (n : Nat)
    (hn : 1 ≤ n) :
    ∀ (rest : List (List α)) (t : Nat) (handles : List (TaskResult α)),
      handles.length ≤ n →
      ∀ c ∈ (mapParGo functions σ t handles rest).2, c ≤ n := by
  intro rest
  induction rest with
  | nil =>
    intro t handles hlen c hc
    simp [mapParGo] at hc
  | cons task rest ih =>
    intro t handles hlen c hc
    simp only [mapParGo] at hc
    have hstep : ((pick σ t handles).2 ++ [parallel_process functions task]).length ≤ n := by
      by_cases hne : handles = []
      · subst hne
        simp [pick]
        omega
      · have hp := pick_length σ t hne
        simp only [List.length_append, List.length_singleton]
        omega
    rcases List.mem_cons.mp hc with rfl | hc
    · exact hstep
    · exact ih (t + 1) _ hstep c hc

theorem reduceLoop_counts (reduce_fn : List α → α) (rb : Nat) (σ : Nat → Nat) (n : Nat) :
    ∀ (fuel t level : Nat) (handles : List (TaskResult α)) (tree : List (List α))
      (log : List LogEntry),
      handles.length ≤ n →
      (∀ e ∈ log, ∀ c, e = LogEntry.handleCount c → c ≤ n + 1) →
      ((∀ e ∈ (reduceLoop reduce_fn rb σ fuel t level handles tree log).2,
          ∀ c, e = LogEntry.handleCount c → c ≤ n + 1) ∧
        (∀ t' hs' tree',
          (reduceLoop reduce_fn rb σ fuel t level handles tree log).1 =
            some (t', hs', tree') → hs'.length ≤ n)) := by
  intro fuel
  induction fuel with
  | zero =>
    intro t level handles tree log hlen hlog
    refine ⟨hlog, ?_⟩
    intro t' hs' tree' h
    simp [reduceLoop] at h
  | succ fuel ih =>
    intro t level handles tree log hlen hlog
    simp only [reduceLoop]
    split
    · have hne : handles ++
          [wrap_reduce_function reduce_fn (tree.getD level []) (level + 1)] ≠ [] := by
        simp
      have hp := pick_length σ t hne
      refine ih (t + 1) _ _ _ _ ?_ ?_
      · simp only [List.length_append, List.length_singleton] at hp
        omega
      · intro e he c hec
        rcases List.mem_append.mp he with h | h
        · exact hlog e h c hec
        · rw [List.mem_singleton] at h
          subst h
          cases hec
          simp only [List.length_append, List.length_singleton]
          omega
    · refine ⟨hlog, ?_⟩
      intro t' hs' tree' h
      simp only [Option.some.injEq, Prod.mk.injEq] at h
      rcases h with ⟨_, h2, _⟩
      rw [← h2]
      exact hlen

theorem mrMainLoop_counts (functions : List (Stage α)) (reduce_fn : List α → α)
    (rb : Nat) (σ : Nat → Nat) (fuel : Nat) (n : Nat) (hn : 1 ≤ n) :
    ∀ (rest : List (List α)) (t : Nat) (handles : List (TaskResult α))
      (tree : List (List α)) (log : List LogEntry),
      handles.length ≤ n →
      (∀ e ∈ log, ∀ c, e = LogEntry.handleCount c → c ≤ n + 1) →
      ∀ e ∈ (mrMainLoop functions reduce_fn rb σ fuel t handles tree log rest).2,
        ∀ c, e = LogEntry.handleCount c → c ≤ n + 1 := by
  intro rest
  induction rest with
  | nil =>
    intro t handles tree log hlen hlog e he
    simp only [mrMainLoop] at he
    exact hlog e he
  | cons task rest ih =>
    intro t handles tree log hlen hlog e he
    simp only [mrMainLoop] at he
    have hlen' : ((pick σ t handles).2 ++ [parallel_process functions task]).length ≤ n := by
      by_cases hne : handles = []
      · subst hne
        simp [pick]
        omega
      · have hp := pick_length σ t hne
        simp only [List.length_append, List.length_singleton]
        omega
    have hlog' : ∀ e ∈ log ++
        [LogEntry.handleCount ((pick σ t handles).2 ++ [parallel_process functions task]).length],
        ∀ c, e = LogEntry.handleCount c → c ≤ n + 1 := by
      intro e he c hec
      rcases List.mem_append.mp he with h | h
      · exact hlog e h c hec
      · rw [List.mem_singleton] at h
        subst h
        cases hec
        omega
    have hRLc := reduceLoop_counts reduce_fn rb σ n fuel (t + 1)
      (pick σ t handles).1.level
      ((pick σ t handles).2 ++ [parallel_process functions task])
      (extendTree tree (pick σ t handles).1.level (pick σ t handles).1.data)
      (log ++ [LogEntry.handleCount ((pick σ t handles).2 ++ [parallel_process functions task]).length])
      hlen' hlog'
    rcases hq : reduceLoop reduce_fn rb σ fuel (t + 1)
      (pick σ t handles).1.level
      ((pick σ t handles).2 ++ [parallel_process functions task])
      (extendTree tree (pick σ t handles).1.level (pick σ t handles).1.data)
      (log ++ [LogEntry.handleCount ((pick σ t handles).2 ++ [parallel_process functions task]).length])
      with ⟨o, log2⟩
    rw [hq] at he hRLc
    cases o with
    | none =>
      simp only at he
      exact hRLc.1 e he
    | some trip =>
      obtain ⟨t', hs2, tree2⟩ := trip
      simp only at he
      refine ih t' hs2 tree2 _ ?_ ?_ e he
      · exact hRLc.2 t' hs2 tree2 rfl
      · intro e2 he2 c2 hec2
        rcases List.mem_append.mp he2 with h | h
        · exact hRLc.1 e2 h c2 hec2
        · rw [List.mem_singleton] at h
          subst h
          simp at hec2
  
theorem mrDrain_log (σ : Nat → Nat) :
    ∀ (fuel t : Nat) (handles : List (TaskResult α)) (tree : List (List α))
      (log : List LogEntry),
      ∀ e ∈ (mrDrain σ fuel t handles tree log).2,
        e ∈ log ∨ ∃ s, e = LogEntry.drainSnapshot s := by
  intro fuel
  induction fuel with
  | zero =>
    intro t handles tree log e he
    exact Or.inl (by simpa [mrDrain] using he)
  | succ fuel ih =>
    intro t handles tree log e he
    simp only [mrDrain] at he
    split at he
    · exact Or.inl he
    · rcases ih _ _ _ _ e he with h | h
      · rcases List.mem_append.mp h with h | h
        · exact Or.inl h
        · rw [List.mem_singleton] at h
          exact Or.inr ⟨_, h⟩
      · exact Or.inr h

/-- C1 (amended): in `map`, the number of outstanding handles never exceeds
`nworkers` at any observation point (a new batch is submitted only after a
completed one is collected).  In `map_reduce` the bound is `nworkers + 1`,
not `nworkers`: the flush loop submits a partial-reduction task before
collecting the next result, so the window transiently holds one handle more
than `nworkers` (see `mapReduce_handles_exceed_nworkers`).  Handle counts
are observed immediately after every append to `results_handlers`, which is
where the count peaks. -/
theorem handle_window_bounds (functions : List (Stage α))
    (nworkers batchsize reduce_batch : Nat) (reduce_fn : List α → α)
    (σ : Nat → Nat) (fuel : Nat) (input : List α) (hn : 1 ≤ nworkers) :
    (∀ c ∈ (mapPar functions nworkers batchsize σ input).2, c ≤ nworkers) ∧
    (∀ e ∈ (mapReducePar functions nworkers batchsize reduce_batch reduce_fn σ fuel input).2,
      ∀ c, e = LogEntry.handleCount c → c ≤ nworkers + 1) := by
  have hplen : (((grouper input batchsize).take nworkers).map
      (parallel_process functions)).length ≤ nworkers := by
    simp [List.length_take]
  constructor
  · intro c hc
    simp only [mapPar] at hc
    rcases List.mem_append.mp hc with h | h
    · rcases List.mem_map.mp h with ⟨i, hi, rfl⟩
      rw [List.mem_range] at hi
      omega
    · exact mapParGo_counts functions σ nworkers hn _ 0 _ hplen c h
  · intro e he c hec
    simp only [mapReducePar] at he
    have hlog0 : ∀ e ∈ (List.range (((grouper input batchsize).take nworkers).map
        (parallel_process functions)).length).map (fun i => LogEntry.handleCount (i + 1)),
        ∀ c, e = LogEntry.handleCount c → c ≤ nworkers + 1 := by
      intro e he c hec
      rcases List.mem_map.mp he with ⟨i, hi, rfl⟩
      rw [List.mem_range] at hi
      cases hec
      omega
    have hML := mrMainLoop_counts functions reduce_fn reduce_batch σ fuel nworkers hn
      ((grouper input batchsize).drop nworkers) 0
      (((grouper input batchsize).take nworkers).map (parallel_process functions))
      [[]]
      ((List.range (((grouper input batchsize).take nworkers).map
        (parallel_process functions)).length).map (fun i => LogEntry.handleCount (i + 1)))
      hplen hlog0
    rcases hq : mrMainLoop functions reduce_fn reduce_batch σ fuel 0
      (((grouper input batchsize).take nworkers).map (parallel_process functions))
      [[]]
      ((List.range (((grouper input batchsize).take nworkers).map
        (parallel_process functions)).length).map (fun i => LogEntry.handleCount (i + 1)))
      ((grouper input batchsize).drop nworkers) with ⟨o, log2⟩
    rw [hq] at he hML
    cases o with
    | none =>
      simp only at he
      exact hML e he c hec
    | some trip =>
      obtain ⟨t', hs2, tree2⟩ := trip
      simp only at he
      rcases mrDrain_log σ hs2.length t' hs2 tree2 log2 e he with h | h
      · exact hML e h c hec
      · rcases h with ⟨s, rfl⟩
        simp at hec

theorem handle_window_bounds_witness :
    (1 ≤ 2) ∧
    ((∀ c ∈ (mapPar [idStage] 2 1 sched0 [1, 2, 3]).2, c ≤ 2) ∧
      (∀ e ∈ (mapReducePar [idStage] 2 1 2 natSum sched0 9 [1, 2, 3]).2,
        ∀ c, e = LogEntry.handleCount c → c ≤ 2 + 1)) :=
  ⟨by decide, handle_window_bounds [idStage] 2 1 2 natSum sched0 9 [1, 2, 3] (by decide)⟩

/-- C1 counterexample: with `nworkers = 2`, `reduce_batch = 1` and input
`[1, 2, 3]`, the parallel `map_reduce` observes three outstanding handles
right after submitting a partial reduction — the claimed bound `nworkers`
is exceeded. -/
theorem mapReduce_handles_exceed_nworkers :
    LogEntry.handleCount 3 ∈ (mapReducePar [idStage] 2 1 1 natSum sched0 5 [1, 2, 3]).2 := by
  decide

/-! ### C7: level buffers stay below `reduce_batch` in the submission loop -/

theorem reduceLoop_zero_rb_none (reduce_fn : List α → α) (σ : Nat → Nat) :
    ∀ (fuel t level : Nat) (handles : List (TaskResult α)) (tree : List (List α))
      (log : List LogEntry),
      (reduceLoop reduce_fn 0 σ fuel t level handles tree log).1 = none := by
  intro fuel
  induction fuel with
  | zero =>
    intro t level handles tree log
    rfl
  | succ fuel ih =>
    intro t level handles tree log
    simp only [reduceLoop, Nat.zero_le, if_true]
    exact ih (t + 1) _ _ _ _

theorem reduceLoop_log_shape (reduce_fn : List α → α) (rb : Nat) (σ : Nat → Nat) :
    ∀ (fuel t level : Nat) (handles : List (TaskResult α)) (tree : List (List α))
      (log : List LogEntry),
      ∀ e ∈ (reduceLoop reduce_fn rb σ fuel t level handles tree log).2,
        e ∈ log ∨ ∃ c, e = LogEntry.handleCount c := by
  intro fuel
  induction fuel with
  | zero =>
    intro t level handles tree log e he
    exact Or.inl he
  | succ fuel ih =>
    intro t level handles tree log e he
    simp only [reduceLoop] at he
    split at he
    · rcases ih _ _ _ _ _ e he with h | h
      · rcases List.mem_append.mp h with h | h
        · exact Or.inl h
        · rw [List.mem_singleton] at h
          exact Or.inr ⟨_, h⟩
      · exact Or.inr h
    · exact Or.inl he

theorem reduceLoop_buffers (reduce_fn : List α → α) (rb : Nat) (σ : Nat → Nat)
    (hrb : 1 ≤ rb) :
    ∀ (fuel t level : Nat) (handles : List (TaskResult α)) (tree : List (List α))
      (log : List LogEntry),
      (∀ i, i ≠ level → (tree.getD i []).length < rb) →
      ∀ t' hs' tree',
        (reduceLoop reduce_fn rb σ fuel t level handles tree log).1 =
          some (t', hs', tree') →
        ∀ i, (tree'.getD i []).length < rb := by
  intro fuel
  induction fuel with
  | zero =>
    intro t level handles tree log hinv t' hs' tree' h
    simp [reduceLoop] at h
  | succ fuel ih =>
    intro t level handles tree log hinv t' hs' tree' h
    simp only [reduceLoop] at h
    split at h
    · rename_i hcond
      have hlt : level < tree.length := by
        refine getD_lt_of_ne_nil tree level ?_
        intro hnil
        rw [hnil] at hcond
        simp at hcond
        omega
      refine ih _ _ _ _ _ ?_ t' hs' tree' h
      intro i hi
      rw [extendTree_getD_other _ _ _ _ hi]
      by_cases hil : i = level
      · subst hil
        rw [getD_set_self _ _ _ hlt]
        simpa using hrb
      · rw [getD_set_other _ _ _ _ (fun hx => hil hx.symm)]
        exact hinv i hil
    · rename_i hcond
      simp only [Option.some.injEq, Prod.mk.injEq] at h
      rcases h with ⟨_, _, h3⟩
      rw [← h3]
      intro i
      by_cases hil : i = level
      · subst hil
        omega
      · exact hinv i hil

theorem mrMainLoop_buffers (functions : List (Stage α)) (reduce_fn : List α → α)
    (rb : Nat) (σ : Nat → Nat) (fuel : Nat) (hrb : 1 ≤ rb) :
    ∀ (rest : List (List α)) (t : Nat) (handles : List (TaskResult α))
      (tree : List (List α)) (log : List LogEntry),
      (∀ i, (tree.getD i []).length < rb) →
      (∀ e ∈ log, ∀ s, e = LogEntry.mainSnapshot s → ∀ x ∈ s, x < rb) →
      ∀ e ∈ (mrMainLoop functions reduce_fn rb σ fuel t handles tree log rest).2,
        ∀ s, e = LogEntry.mainSnapshot s → ∀ x ∈ s, x < rb := by
  intro rest
  induction rest with
  | nil =>
    intro t handles tree log hinv hlog e he
    simp only [mrMainLoop] at he
    exact hlog e he
  | cons task rest ih =>
    intro t handles tree log hinv hlog e he
    simp only [mrMainLoop] at he
    have hinv' : ∀ i, i ≠ (pick σ t handles).1.level →
        ((extendTree tree (pick σ t handles).1.level (pick σ t handles).1.data).getD i []).length < rb := by
      intro i hi
      rw [extendTree_getD_other _ _ _ _ hi]
      exact hinv i
    have hlog' : ∀ e ∈ log ++
        [LogEntry.handleCount ((pick σ t handles).2 ++ [parallel_process functions task]).length],
        ∀ s, e = LogEntry.mainSnapshot s → ∀ x ∈ s, x < rb := by
      intro e he s hes
      rcases List.mem_append.mp he with h | h
      · exact hlog e h s hes
      · rw [List.mem_singleton] at h
        subst h
        simp at hes
    rcases hq : reduceLoop reduce_fn rb σ fuel (t + 1)
      (pick σ t handles).1.level
      ((pick σ t handles).2 ++ [parallel_process functions task])
      (extendTree tree (pick σ t handles).1.level (pick σ t handles).1.data)
      (log ++ [LogEntry.handleCount ((pick σ t handles).2 ++ [parallel_process functions task]).length])
      with ⟨o, log2⟩
    rw [hq] at he
    have hshape : ∀ e ∈ log2, e ∈ (log ++
        [LogEntry.handleCount ((pick σ t handles).2 ++ [parallel_process functions task]).length]) ∨
        ∃ c, e = LogEntry.handleCount c := by
      intro e he2
      have := reduceLoop_log_shape reduce_fn rb σ fuel (t + 1)
        (pick σ t handles).1.level
        ((pick σ t handles).2 ++ [parallel_process functions task])
        (extendTree tree (pick σ t handles).1.level (pick σ t handles).1.data)
        (log ++ [LogEntry.handleCount ((pick σ t handles).2 ++ [parallel_process functions task]).length])
        e
      rw [hq] at this
      exact this he2
    have hlog2 : ∀ e ∈ log2, ∀ s, e = LogEntry.mainSnapshot s → ∀ x ∈ s, x < rb := by
      intro e he2 s hes
      rcases hshape e he2 with h | h
      · exact hlog' e h s hes
      · rcases h with ⟨c, rfl⟩
        simp at hes
    cases o with
    | none =>
      simp only at he
      exact hlog2 e he
    | some trip =>
      obtain ⟨t', hs2, tree2⟩ := trip
      simp only at he
      have hbuf : ∀ i, (tree2.getD i []).length < rb := by
        have := reduceLoop_buffers reduce_fn rb σ hrb fuel (t + 1)
          (pick σ t handles).1.level
          ((pick σ t handles).2 ++ [parallel_process functions task])
          (extendTree tree (pick σ t handles).1.level (pick σ t handles).1.data)
          (log ++ [LogEntry.handleCount ((pick σ t handles).2 ++ [parallel_process functions task]).length])
          hinv' t' hs2 tree2
        rw [hq] at this
        exact this rfl
      refine ih t' hs2 tree2 _ hbuf ?_ e he
      intro e2 he2 s hes
      rcases List.mem_append.mp he2 with h | h
      · exact hlog2 e2 h s hes
      · rw [List.mem_singleton] at h
        subst h
        cases hes
        intro x hx
        rcases List.mem_map.mp hx with ⟨b, hb, rfl⟩
        rcases List.mem_iff_getElem.mp hb with ⟨j, hj, rfl⟩
        rw [← List.getD_eq_getElem tree2 [] hj]
        exact hbuf j

theorem mrMainLoop_zero_rb_shape (functions : List (Stage α)) (reduce_fn : List α → α)
    (σ : Nat → Nat) (fuel : Nat) :
    ∀ (rest : List (List α)) (t : Nat) (handles : List (TaskResult α))
      (tree : List (List α)) (log : List LogEntry),
      ∀ e ∈ (mrMainLoop functions reduce_fn 0 σ fuel t handles tree log rest).2,
        e ∈ log ∨ ∃ c, e = LogEntry.handleCount c := by
  intro rest
  induction rest with
  | nil =>
    intro t handles tree log e he
    simp only [mrMainLoop] at he
    exact Or.inl he
  | cons task rest ih =>
    intro t handles tree log e he
    simp only [mrMainLoop] at he
    rcases hq : reduceLoop reduce_fn 0 σ fuel (t + 1)
      (pick σ t handles).1.level
      ((pick σ t handles).2 ++ [parallel_process functions task])
      (extendTree tree (pick σ t handles).1.level (pick σ t handles).1.data)
      (log ++ [LogEntry.handleCount ((pick σ t handles).2 ++ [parallel_process functions task]).length])
      with ⟨o, log2⟩
    have ho : o = none := by
      have := reduceLoop_zero_rb_none reduce_fn σ fuel (t + 1)
        (pick σ t handles).1.level
        ((pick σ t handles).2 ++ [parallel_process functions task])
        (extendTree tree (pick σ t handles).1.level (pick σ t handles).1.data)
        (log ++ [LogEntry.handleCount ((pick σ t handles).2 ++ [parallel_process functions task]).length])
      rw [hq] at this
      exact this
    subst ho
    rw [hq] at he
    simp only at he
    have := reduceLoop_log_shape reduce_fn 0 σ fuel (t + 1)
      (pick σ t handles).1.level
      ((pick σ t handles).2 ++ [parallel_process functions task])
      (extendTree tree (pick σ t handles).1.level (pick σ t handles).1.data)
      (log ++ [LogEntry.handleCount ((pick σ t handles).2 ++ [parallel_process functions task]).length])
      e
    rw [hq] at this
    rcases this he with h | h
    · rcases List.mem_append.mp h with h | h
      · exact Or.inl h
      · rw [List.mem_singleton] at h
        exact Or.inr ⟨_, h⟩
    · exact Or.inr h

/-- C7 (amended): during the submission loop of the parallel `map_reduce`,
every buffer-size observation taken when the flush loop exits (the
non-transient points between loop iterations) shows every level buffer
holding fewer than `reduce_batch` items.  The claim's extension to the
drain phase is false: the drain loop extends level 0 without ever flushing,
so a buffer there reaches `reduce_batch` and beyond and stays (see
`drain_buffer_reaches_reduce_batch`). -/
theorem buffer_invariant_main_loop (functions : List (Stage α))
    (nworkers batchsize reduce_batch : Nat) (reduce_fn : List α → α)
    (σ : Nat → Nat) (fuel : Nat) (input : List α) :
    ∀ e ∈ (mapReducePar functions nworkers batchsize reduce_batch reduce_fn σ fuel input).2,
      ∀ s, e = LogEntry.mainSnapshot s → ∀ x ∈ s, x < reduce_batch := by
  intro e he s hes
  simp only [mapReducePar] at he
  have hlog0 : ∀ e ∈ (List.range (((grouper input batchsize).take nworkers).map
      (parallel_process functions)).length).map (fun i => LogEntry.handleCount (i + 1)),
      ∀ s, e = LogEntry.mainSnapshot s → ∀ x ∈ s, x < reduce_batch := by
    intro e he s hes2
    rcases List.mem_map.mp he with ⟨i, _, rfl⟩
    simp at hes2
  rcases hq : mrMainLoop functions reduce_fn reduce_batch σ fuel 0
    (((grouper input batchsize).take nworkers).map (parallel_process functions))
    [[]]
    ((List.range (((grouper input batchsize).take nworkers).map
      (parallel_process functions)).length).map (fun i => LogEntry.handleCount (i + 1)))
    ((grouper input batchsize).drop nworkers) with ⟨o, log2⟩
  rw [hq] at he
  have hlog2 : ∀ e ∈ log2, ∀ s, e = LogEntry.mainSnapshot s → ∀ x ∈ s, x < reduce_batch := by
    rcases Nat.eq_zero_or_pos reduce_batch with hz | hpos
    · subst hz
      intro e2 he2 s2 hes2
      have := mrMainLoop_zero_rb_shape functions reduce_fn σ fuel
        ((grouper input batchsize).drop nworkers) 0
        (((grouper input batchsize).take nworkers).map (parallel_process functions))
        [[]]
        ((List.range (((grouper input batchsize).take nworkers).map
          (parallel_process functions)).length).map (fun i => LogEntry.handleCount (i + 1)))
        e2
      rw [hq] at this
      rcases this he2 with h | h
      · exact hlog0 e2 h s2 hes2
      · rcases h with ⟨c, rfl⟩
        simp at hes2
    · intro e2 he2 s2 hes2
      have hinv0 : ∀ i, (([[]] : List (List α)).getD i []).length < reduce_batch := by
        intro i
        cases i with
        | zero => simpa using hpos
        | succ j =>
          rw [getD_len_le _ _ (by simp)]
          simpa using hpos
      have := mrMainLoop_buffers functions reduce_fn reduce_batch σ fuel hpos
        ((grouper input batchsize).drop nworkers) 0
        (((grouper input batchsize).take nworkers).map (parallel_process functions))
        [[]]
        ((List.range (((grouper input batchsize).take nworkers).map
          (parallel_process functions)).length).map (fun i => LogEntry.handleCount (i + 1)))
        hinv0 hlog0 e2
      rw [hq] at this
      exact this he2 s2 hes2
  cases o with
  | none =>
    simp only at he
    exact hlog2 e he s hes
  | some trip =>
    obtain ⟨t', hs2, tree2⟩ := trip
    simp only at he
    rcases mrDrain_log σ hs2.length t' hs2 tree2 log2 e he with h | h
    · exact hlog2 e h s hes
    · rcases h with ⟨s2, rfl⟩
      simp at hes

theorem buffer_invariant_main_loop_witness :
    (LogEntry.mainSnapshot [1] ∈ (mapReducePar [idStage] 2 1 2 natSum sched0 5 [1, 2, 3]).2) ∧
    (∀ x ∈ [1], x < 2) :=
  ⟨by decide,
    buffer_invariant_main_loop [idStage] 2 1 2 natSum sched0 5 [1, 2, 3]
      (LogEntry.mainSnapshot [1]) (by decide) [1] rfl⟩

/-- C7 counterexample: in the drain phase the invariant fails — with
`reduce_batch = 2`, `nworkers = 2` and input `[1, 2]`, the level-0 buffer
is observed holding 2 items (not fewer than `reduce_batch`) at the end of a
drain iteration, and no flush ever happens there. -/
theorem drain_buffer_reaches_reduce_batch :
    LogEntry.drainSnapshot [2] ∈ (mapReducePar [idStage] 2 1 2 natSum sched0 5 [1, 2]).2 ∧
      ¬ (2 < 2) :=
  ⟨by decide, by decide⟩

/-! ### C3/C4: with `reduce_batch = 1` the parallel flush loop never exits -/

theorem reduceLoop_rb_one_none (reduce_fn : List α → α) (σ : Nat → Nat) :
    ∀ (fuel t level : Nat) (handles : List (TaskResult α)) (tree : List (List α))
      (log : List LogEntry),
      handles ≠ [] →
      (∀ h ∈ handles, h.data ≠ [] ∧ h.level ≤ tree.length) →
      tree.getD level [] ≠ [] →
      (reduceLoop reduce_fn 1 σ fuel t level handles tree log).1 = none := by
  intro fuel
  induction fuel with
  | zero =>
    intro t level handles tree log _ _ _
    rfl
  | succ fuel ih =>
    intro t level handles tree log hne hinv hlev
    have hlt : level < tree.length := getD_lt_of_ne_nil tree level hlev
    simp only [reduceLoop]
    rw [if_pos (show 1 ≤ (tree.getD level []).length from List.length_pos.mpr hlev)]
    have h1ne : handles ++
        [wrap_reduce_function reduce_fn (tree.getD level []) (level + 1)] ≠ [] := by
      simp
    have hinv1 : ∀ h ∈ handles ++
        [wrap_reduce_function reduce_fn (tree.getD level []) (level + 1)],
        h.data ≠ [] ∧ h.level ≤ tree.length := by
      intro h hm
      rcases List.mem_append.mp hm with hm | hm
      · exact hinv h hm
      · rw [List.mem_singleton] at hm
        subst hm
        exact ⟨by simp [wrap_reduce_function], by simp [wrap_reduce_function]; omega⟩
    have hpm := pick_mem σ t h1ne
    have hplen := pick_length σ t h1ne
    apply ih
    · -- the picked-from list keeps at least the original handles
      intro hc
      rw [hc] at hplen
      simp only [List.length_nil, List.length_append, List.length_singleton] at hplen
      exact hne (List.eq_nil_of_length_eq_zero (by omega))
    · intro h hm
      have hsub := pick_sub σ t h1ne hm
      have h2 := hinv1 h hsub
      refine ⟨h2.1, ?_⟩
      calc h.level ≤ tree.length := h2.2
        _ = (tree.set level []).length := (List.length_set tree level []).symm
        _ ≤ (extendTree (tree.set level [])
            (pick σ t (handles ++ [wrap_reduce_function reduce_fn (tree.getD level []) (level + 1)])).1.level
            (pick σ t (handles ++ [wrap_reduce_function reduce_fn (tree.getD level []) (level + 1)])).1.data).length :=
          extendTree_length_ge _ _ _
    · have hp1 := hinv1 _ hpm
      rw [extendTree_getD_self _ _ _ (by rw [List.length_set]; exact hp1.2)]
      intro hc
      have := List.append_eq_nil.mp hc
      exact hp1.1 this.2

theorem mrMainLoop_rb_one_none (functions : List (Stage α)) (reduce_fn : List α → α)
    (σ : Nat → Nat) (fuel : Nat) (task : List α) (rest : List (List α))
    (t : Nat) (handles : List (TaskResult α)) (tree : List (List α))
    (log : List LogEntry)
    (hne : handles ≠ [])
    (hinv : ∀ h ∈ handles, h.data ≠ [] ∧ h.level ≤ tree.length)
    (htask : pipeData functions task ≠ []) :
    (mrMainLoop functions reduce_fn 1 σ fuel t handles tree log (task :: rest)).1 = none := by
  simp only [mrMainLoop]
  have hpm := pick_mem σ t hne
  have hp := hinv _ hpm
  have hRL : (reduceLoop reduce_fn 1 σ fuel (t + 1)
      (pick σ t handles).1.level
      ((pick σ t handles).2 ++ [parallel_process functions task])
      (extendTree tree (pick σ t handles).1.level (pick σ t handles).1.data)
      (log ++ [LogEntry.handleCount ((pick σ t handles).2 ++ [parallel_process functions task]).length])).1 = none := by
    refine reduceLoop_rb_one_none reduce_fn σ fuel (t + 1) _ _ _ _ ?_ ?_ ?_
    · simp
    · intro h hm
      rcases List.mem_append.mp hm with hm | hm
      · have h2 := hinv h (pick_sub σ t hne hm)
        exact ⟨h2.1, h2.2.trans (extendTree_length_ge _ _ _)⟩
      · rw [List.mem_singleton] at hm
        subst hm
        refine ⟨htask, ?_⟩
        show 0 ≤ _
        omega
    · rw [extendTree_getD_self _ _ _ hp.2]
      intro hc
      exact hp.1 (List.append_eq_nil.mp hc).2
  rcases hq : reduceLoop reduce_fn 1 σ fuel (t + 1)
      (pick σ t handles).1.level
      ((pick σ t handles).2 ++ [parallel_process functions task])
      (extendTree tree (pick σ t handles).1.level (pick σ t handles).1.data)
      (log ++ [LogEntry.handleCount ((pick σ t handles).2 ++ [parallel_process functions task]).length])
      with ⟨o, log2⟩
  rw [hq] at hRL
  have ho : o = none := hRL
  subst ho
  rfl

theorem rb_one_instance_diverges (reduce_fn : List Nat → Nat) (σ : Nat → Nat)
    (fuel : Nat) (a b c : Nat) :
    (mapReducePar [idStage] 2 1 1 reduce_fn σ fuel [a, b, c]).1 = none := by
  simp only [mapReducePar]
  rw [show (grouper [a, b, c] 1).drop 2 = [[c]] from rfl,
    show ((grouper [a, b, c] 1).take 2).map (parallel_process [idStage]) =
      [⟨[a], 0⟩, ⟨[b], 0⟩] from rfl]
  have hML := mrMainLoop_rb_one_none [idStage] reduce_fn σ fuel [c] [] 0
    [⟨[a], 0⟩, ⟨[b], 0⟩] [[]]
    ((List.range ([⟨[a], 0⟩, (⟨[b], 0⟩ : TaskResult Nat)].length)).map
      (fun i => LogEntry.handleCount (i + 1)))
    (by simp)
    (by
      intro h hm
      rcases List.mem_cons.mp hm with rfl | hm
      · exact ⟨by simp, by simp⟩
      · rcases List.mem_cons.mp hm with rfl | hm
        · exact ⟨by simp, by simp⟩
        · simp at hm)
    (by simp [pipeData, parallel_process, idStage])
  rcases hq : mrMainLoop [idStage] reduce_fn 1 σ fuel 0
    [⟨[a], 0⟩, ⟨[b], 0⟩] [[]]
    ((List.range ([⟨[a], 0⟩, (⟨[b], 0⟩ : TaskResult Nat)].length)).map
      (fun i => LogEntry.handleCount (i + 1)))
    [[c]] with ⟨o, log2⟩
  rw [hq] at hML
  have ho : o = none := hML
  subst ho
  rfl

/-- C4: with `reduce_batch = 1`, `nworkers = 2` and more batches than
workers, the parallel `map_reduce` never completes, whatever the reducer,
the completion schedule or the fuel: every collected result is nonempty, so
the freshly extended level buffer always reaches the threshold 1 and the
flush loop submits another single-item reduction forever, promoting one
item up the levels endlessly. -/
theorem mapReducePar_rb_one_diverges (reduce_fn : List Nat → Nat) (σ : Nat → Nat)
    (fuel : Nat) :
    (mapReducePar [idStage] 2 1 1 reduce_fn σ fuel [1, 2, 3]).1 = none :=
  rb_one_instance_diverges reduce_fn σ fuel 1 2 3

/-- C3 counterexample: the claim fails in two independent ways.  With
`workerCount = 1` and empty input, `map_reduce` returns `None`, not the
fold of the reducer over the (empty) flattened output; and with
`reduceBatch = 1`, `workerCount = 2` and input `[5, 6, 7]`, the parallel
`map_reduce` never returns at all. -/
theorem mapReduce_fold_claim_fails :
    (mapReduceSeqRun [idStage] 1 1 natSum []).1 = none ∧
    NeverReturns (fun fuel => mapReducePar [idStage] 2 1 1 natSum sched0 fuel [5, 6, 7]) :=
  ⟨rfl, fun fuel => rb_one_instance_diverges natSum sched0 fuel 5 6 7⟩

/-! ### C3: the sequential map_reduce computes the monoid fold -/

theorem mval_of_coe_eq (op : M → M → M) (e : M)
    (ha : ∀ a b c, op (op a b) c = op a (op b c)) (hc : ∀ a b, op a b = op b a)
    {xs ys : List M} (h : (↑xs : Multiset M) = ↑ys) :
    mval op e xs = mval op e ys :=
  mval_perm op e ha hc (Multiset.coe_eq_coe.mp h)

theorem handlesData_snoc (hs : List (TaskResult α)) (x : TaskResult α) :
    handlesData (hs ++ [x]) = handlesData hs ++ x.data := by
  simp [handlesData, List.map_append, List.flatten_append]

theorem seq_fold_general (op : M → M → M) (e : M)
    (ha : ∀ a b c, op (op a b) c = op a (op b c))
    (hc : ∀ a b, op a b = op b a) (hid : ∀ a, op e a = a) :
    ∀ (chunks : List (List (TaskResult M))) (A : List M) (calls : List (List M))
      (acc1 : Option M),
      (acc1 = none → A = []) →
      (∀ v, acc1 = some v → v = mval op e A) →
      (chunks ≠ [] ∨ acc1 ≠ none) →
      (chunks.foldl (fun acc y =>
          let arg := (y.map TaskResult.data).flatten ++
            (match acc.1 with | none => [] | some o => [o])
          (some (mval op e arg), acc.2 ++ [arg])) (acc1, calls)).1 =
        some (mval op e (A ++ ((chunks.flatten).map TaskResult.data).flatten)) := by
  intro chunks
  induction chunks with
  | nil =>
    intro A calls acc1 hnone hsome hor
    rcases hor with h | h
    · exact absurd rfl h
    · cases acc1 with
      | none => exact absurd rfl h
      | some v =>
        rw [hsome v rfl]
        simp
  | cons c cs ih =>
    intro A calls acc1 hnone hsome hor
    rw [List.foldl_cons]
    cases acc1 with
    | none =>
      have hA := hnone rfl
      subst hA
      have hstep := ih ((c.map TaskResult.data).flatten ++ [])
        (calls ++ [(c.map TaskResult.data).flatten ++ []])
        (some (mval op e ((c.map TaskResult.data).flatten ++ [])))
        (by intro h; cases h)
        (by intro v hv; injection hv with h; exact h.symm)
        (Or.inr (by intro h; cases h))
      rw [show ([] : List M) ++ (((c :: cs).flatten).map TaskResult.data).flatten =
          (((c.map TaskResult.data).flatten ++ []) ++ ((cs.flatten).map TaskResult.data).flatten) by
        simp [List.flatten_cons, List.map_append, List.flatten_append]]
      exact hstep
    | some v =>
      have hv := hsome v rfl
      have hval : mval op e ((c.map TaskResult.data).flatten ++ [v]) =
          mval op e (A ++ (c.map TaskResult.data).flatten) := by
        rw [mval_append op e ha hid, mval_append op e ha hid,
          mval_singleton op e hc hid, hv]
        exact hc _ _
      have hstep := ih (A ++ (c.map TaskResult.data).flatten)
        (calls ++ [(c.map TaskResult.data).flatten ++ [v]])
        (some (mval op e ((c.map TaskResult.data).flatten ++ [v])))
        (by intro h; cases h)
        (by intro w hw; injection hw with h; rw [← h]; exact hval)
        (Or.inr (by intro h; cases h))
      rw [show A ++ (((c :: cs).flatten).map TaskResult.data).flatten =
          ((A ++ (c.map TaskResult.data).flatten) ++ ((cs.flatten).map TaskResult.data).flatten) by
        simp [List.flatten_cons, List.map_append, List.flatten_append, List.append_assoc]]
      exact hstep

theorem mapReduceSeq_fold (functions : List (Stage M)) (batchsize reduce_batch : Nat)
    (op : M → M → M) (e : M)
    (ha : ∀ a b c, op (op a b) c = op a (op b c))
    (hc : ∀ a b, op a b = op b a) (hid : ∀ a, op e a = a)
    (input : List M) (hne : input ≠ []) :
    (mapReduceSeqRun functions batchsize reduce_batch (mval op e) input).1 =
      some (mval op e (flatOut functions batchsize input)) := by
  unfold mapReduceSeqRun
  have hres : (grouper input batchsize).map (parallel_process functions) ≠ [] := by
    intro hm
    exact grouper_ne_nil batchsize hne (List.map_eq_nil_iff.mp hm)
  have hchunks := grouper_ne_nil reduce_batch hres
  have hflat : (((grouper ((grouper input batchsize).map (parallel_process functions))
      reduce_batch).flatten).map TaskResult.data).flatten =
      flatOut functions batchsize input := by
    rw [grouper_flatten, flatOut, List.map_map]
    rfl
  rw [show flatOut functions batchsize input =
    ([] : List M) ++ (((grouper ((grouper input batchsize).map (parallel_process functions))
      reduce_batch).flatten).map TaskResult.data).flatten from by rw [hflat]; simp]
  exact seq_fold_general op e ha hc hid _ [] [] none (fun _ => rfl)
    (by intro v hv; cases hv) (Or.inl hchunks)

/-! ### C3: the parallel flush loop, for `reduce_batch ≥ 2` -/

theorem reduceLoop_correct (op : M → M → M) (e : M)
    (ha : ∀ a b c, op (op a b) c = op a (op b c))
    (hc : ∀ a b, op a b = op b a) (hid : ∀ a, op e a = a)
    (rb : Nat) (hrb : 2 ≤ rb) (σ : Nat → Nat) :
    ∀ (fuel t level : Nat) (handles : List (TaskResult M)) (tree : List (List M))
      (log : List LogEntry),
      handles ≠ [] →
      1 ≤ tree.length →
      (∀ h ∈ handles, h.level ≤ tree.length) →
      (handlesData handles).length + tree.flatten.length + 1 ≤ fuel →
      ∃ t' hs' tree' log',
        reduceLoop (mval op e) rb σ fuel t level handles tree log =
          (some (t', hs', tree'), log') ∧
        hs' ≠ [] ∧
        1 ≤ tree'.length ∧
        (∀ h ∈ hs', h.level ≤ tree'.length) ∧
        hs'.length = handles.length ∧
        (handlesData hs').length + tree'.flatten.length ≤
          (handlesData handles).length + tree.flatten.length ∧
        mval op e (tree'.flatten ++ handlesData hs') =
          mval op e (tree.flatten ++ handlesData handles) := by
  intro fuel
  induction fuel with
  | zero =>
    intro t level handles tree log _ _ _ hfuel
    omega
  | succ fuel ih =>
    intro t level handles tree log hne hlen1 hlev hfuel
    by_cases hcond : rb ≤ (tree.getD level []).length
    · have hbufne : tree.getD level [] ≠ [] := by
        intro h0
        rw [h0] at hcond
        simp at hcond
        omega
      have hlt : level < tree.length := getD_lt_of_ne_nil tree level hbufne
      simp only [reduceLoop]
      rw [if_pos hcond]
      set w := wrap_reduce_function (mval op e) (tree.getD level []) (level + 1) with hw
      set handles1 := handles ++ [w] with hh1
      have h1ne : handles1 ≠ [] := by simp [hh1]
      set p := pick σ t handles1 with hp
      have hpmem : p.1 ∈ handles1 := pick_mem σ t h1ne
      have hplen : p.2.length + 1 = handles1.length := pick_length σ t h1ne
      set tree1 := tree.set level [] with ht1
      set tree2 := extendTree tree1 p.1.level p.1.data with ht2
      have hlen1' : tree1.length = tree.length := List.length_set tree level []
      have hlev1 : ∀ h ∈ handles1, h.level ≤ tree1.length := by
        intro h hm
        rw [hlen1']
        rcases List.mem_append.mp hm with hm | hm
        · exact hlev h hm
        · rw [List.mem_singleton] at hm
          subst hm
          rw [hw]
          show level + 1 ≤ tree.length
          omega
      have hp1lev : p.1.level ≤ tree1.length := hlev1 p.1 hpmem
      have hlen2 : 1 ≤ tree2.length := by
        rw [ht2]
        have := extendTree_length_ge tree1 p.1.level p.1.data
        omega
      have hlev2 : ∀ h ∈ p.2, h.level ≤ tree2.length := by
        intro h hm
        have h3 := hlev1 h (pick_sub σ t h1ne hm)
        rw [ht2]
        have h2 := extendTree_length_ge tree1 p.1.level p.1.data
        omega
      have hl1len : handles1.length = handles.length + 1 := by
        rw [hh1]
        simp
      have hp2ne : p.2 ≠ [] := by
        intro h0
        rw [h0] at hplen
        simp at hplen
        have hz : handles.length = 0 := by omega
        exact hne (List.eq_nil_of_length_eq_zero hz)
      have hHsnoc : handlesData handles1 =
          handlesData handles ++ [mval op e (tree.getD level [])] := by
        rw [hh1, handlesData_snoc, hw]
        rfl
      have hmix : (↑p.1.data : Multiset M) + ↑(handlesData p.2) =
          ↑(handlesData handles) + ↑[mval op e (tree.getD level [])] := by
        have h1 := Multiset.coe_eq_coe.mpr (handlesData_pick σ t h1ne)
        rw [hHsnoc] at h1
        simp only [← Multiset.coe_add] at h1
        exact h1.symm
      have hT1 : (↑tree.flatten : Multiset M) = ↑tree1.flatten + ↑(tree.getD level []) := by
        have h1 := Multiset.coe_eq_coe.mpr (tree_flatten_clear_perm tree level)
        simp only [← Multiset.coe_add] at h1
        exact h1
      have hT2 : (↑tree2.flatten : Multiset M) = ↑tree1.flatten + ↑p.1.data := by
        have h1 := Multiset.coe_eq_coe.mpr
          (extendTree_flatten_perm tree1 p.1.level p.1.data hp1lev)
        simp only [← Multiset.coe_add] at h1
        exact h1
      have hlH : p.1.data.length + (handlesData p.2).length =
          (handlesData handles).length + 1 := by
        have h1 := congrArg Multiset.card hmix
        simpa using h1
      have hlT1 : tree.flatten.length = tree1.flatten.length + (tree.getD level []).length := by
        have h1 := congrArg Multiset.card hT1
        simpa using h1
      have hlT2 : tree2.flatten.length = tree1.flatten.length + p.1.data.length := by
        have h1 := congrArg Multiset.card hT2
        simpa using h1
      have hfuel2 : (handlesData p.2).length + tree2.flatten.length + 1 ≤ fuel := by
        omega
      obtain ⟨t', hs', tree', log', heq, hne', hl1', hlev', hcnt', hphi', hval'⟩ :=
        ih (t + 1) p.1.level p.2 tree2 (log ++ [LogEntry.handleCount handles1.length])
          hp2ne hlen2 hlev2 hfuel2
      refine ⟨t', hs', tree', log', heq, hne', hl1', hlev', by omega, by omega, ?_⟩
      rw [hval']
      have hop : ∀ x y z : M, op x (op y z) = op (op x z) y := by
        intro x y z
        rw [hc y z, ← ha]
      have hstep1 : mval op e (tree2.flatten ++ handlesData p.2) =
          mval op e (tree1.flatten ++ (handlesData handles ++
            [mval op e (tree.getD level [])])) := by
        refine mval_of_coe_eq op e ha hc ?_
        simp only [← Multiset.coe_add]
        rw [hT2, add_assoc, hmix]
      have hstep3 : mval op e (tree.flatten ++ handlesData handles) =
          mval op e ((tree1.flatten ++ tree.getD level []) ++ handlesData handles) := by
        refine mval_of_coe_eq op e ha hc ?_
        simp only [← Multiset.coe_add]
        rw [hT1]
      rw [hstep1, hstep3]
      rw [mval_append op e ha hid, mval_append op e ha hid,
        mval_singleton op e hc hid, mval_append op e ha hid,
        mval_append op e ha hid]
      exact hop _ _ _
    · simp only [reduceLoop]
      rw [if_neg hcond]
      exact ⟨t, handles, tree, log, rfl, hne, hlen1, hlev, rfl, Nat.le_refl _, rfl⟩

theorem mrMainLoop_correct (functions : List (Stage M)) (op : M → M → M) (e : M)
    (ha : ∀ a b c, op (op a b) c = op a (op b c))
    (hc : ∀ a b, op a b = op b a) (hid : ∀ a, op e a = a)
    (rb : Nat) (hrb : 2 ≤ rb) (σ : Nat → Nat) (fuel : Nat) :
    ∀ (rest : List (List M)) (t : Nat) (handles : List (TaskResult M))
      (tree : List (List M)) (log : List LogEntry),
      (rest ≠ [] → handles ≠ []) →
      1 ≤ tree.length →
      (∀ h ∈ handles, h.level ≤ tree.length) →
      (handlesData handles).length + tree.flatten.length +
        ((rest.map (pipeData functions)).flatten).length + 1 ≤ fuel →
      ∃ t' hs' tree' log',
        mrMainLoop functions (mval op e) rb σ fuel t handles tree log rest =
          (some (t', hs', tree'), log') ∧
        1 ≤ tree'.length ∧
        mval op e (tree'.flatten ++ handlesData hs') =
          mval op e (tree.flatten ++ handlesData handles ++
            (rest.map (pipeData functions)).flatten) := by
  intro rest
  induction rest with
  | nil =>
    intro t handles tree log _ hlen1 _ _
    exact ⟨t, handles, tree, log, rfl, hlen1, by simp⟩
  | cons task rest ih =>
    intro t handles tree log hne0 hlen1 hlev hfuel
    have hne : handles ≠ [] := hne0 (by simp)
    simp only [mrMainLoop]
    set p := pick σ t handles with hp
    have hpmem : p.1 ∈ handles := pick_mem σ t hne
    have hplen : p.2.length + 1 = handles.length := pick_length σ t hne
    set tree1 := extendTree tree p.1.level p.1.data with ht1
    set handles1 := p.2 ++ [parallel_process functions task] with hh1
    have hp1lev : p.1.level ≤ tree.length := hlev p.1 hpmem
    have hlen1' : 1 ≤ tree1.length := by
      rw [ht1]
      have := extendTree_length_ge tree p.1.level p.1.data
      omega
    have h1ne : handles1 ≠ [] := by simp [hh1]
    have hlev1 : ∀ h ∈ handles1, h.level ≤ tree1.length := by
      intro h hm
      rcases List.mem_append.mp hm with hm | hm
      · have h2 := hlev h (pick_sub σ t hne hm)
        rw [ht1]
        have := extendTree_length_ge tree p.1.level p.1.data
        omega
      · rw [List.mem_singleton] at hm
        subst hm
        show (0 : Nat) ≤ tree1.length
        omega
    have hHperm : (↑(handlesData handles) : Multiset M) =
        ↑p.1.data + ↑(handlesData p.2) := by
      have h1 := Multiset.coe_eq_coe.mpr (handlesData_pick σ t hne)
      simp only [← Multiset.coe_add] at h1
      exact h1
    have hHsnoc : handlesData handles1 = handlesData p.2 ++ pipeData functions task := by
      rw [hh1, handlesData_snoc]
      rfl
    have hT1 : (↑tree1.flatten : Multiset M) = ↑tree.flatten + ↑p.1.data := by
      have h1 := Multiset.coe_eq_coe.mpr
        (extendTree_flatten_perm tree p.1.level p.1.data hp1lev)
      simp only [← Multiset.coe_add] at h1
      exact h1
    have hlH : (handlesData handles).length =
        p.1.data.length + (handlesData p.2).length := by
      have h1 := congrArg Multiset.card hHperm
      simpa using h1
    have hlH1 : (handlesData handles1).length =
        (handlesData p.2).length + (pipeData functions task).length := by
      rw [hHsnoc]
      simp
    have hlT1 : tree1.flatten.length = tree.flatten.length + p.1.data.length := by
      have h1 := congrArg Multiset.card hT1
      simpa using h1
    have hfcons : ((task :: rest).map (pipeData functions)).flatten =
        pipeData functions task ++ (rest.map (pipeData functions)).flatten := by
      simp [List.flatten_cons]
    have hflen : ((task :: rest).map (pipeData functions)).flatten.length =
        (pipeData functions task).length +
          ((rest.map (pipeData functions)).flatten).length := by
      rw [hfcons]
      simp
    have hfuelRL : (handlesData handles1).length + tree1.flatten.length + 1 ≤ fuel := by
      rw [hflen] at hfuel
      omega
    obtain ⟨t2, hs2, tree2, log2, heq2, hne2, hl2, hlev2, hcnt2, hphi2, hval2⟩ :=
      reduceLoop_correct op e ha hc hid rb hrb σ fuel (t + 1) p.1.level handles1 tree1
        (log ++ [LogEntry.handleCount handles1.length]) h1ne hlen1' hlev1 hfuelRL
    rw [heq2]
    have hfuelIH : (handlesData hs2).length + tree2.flatten.length +
        ((rest.map (pipeData functions)).flatten).length + 1 ≤ fuel := by
      rw [hflen] at hfuel
      omega
    obtain ⟨t3, hs3, tree3, log3, heq3, hl3, hval3⟩ :=
      ih t2 hs2 tree2 (log2 ++ [LogEntry.mainSnapshot (tree2.map List.length)])
        (fun _ => hne2) hl2 hlev2 hfuelIH
    refine ⟨t3, hs3, tree3, log3, heq3, hl3, ?_⟩
    rw [hval3]
    rw [mval_append op e ha hid, hval2, ← mval_append op e ha hid]
    refine mval_of_coe_eq op e ha hc ?_
    rw [hHsnoc, hfcons]
    simp only [← Multiset.coe_add]
    rw [hT1, hHperm]
    abel

theorem mrDrain_correct (op : M → M → M) (e : M)
    (ha : ∀ a b c, op (op a b) c = op a (op b c))
    (hc : ∀ a b, op a b = op b a) (σ : Nat → Nat) :
    ∀ (fuel t : Nat) (handles : List (TaskResult M)) (tree : List (List M))
      (log : List LogEntry),
      fuel = handles.length →
      1 ≤ tree.length →
      mval op e ((mrDrain σ fuel t handles tree log).1.flatten) =
        mval op e (tree.flatten ++ handlesData handles) := by
  intro fuel
  induction fuel with
  | zero =>
    intro t handles tree log hfl _
    have h0 : handles = [] := List.eq_nil_of_length_eq_zero hfl.symm
    subst h0
    simp [mrDrain, handlesData]
  | succ fuel ih =>
    intro t handles tree log hfl hlen1
    have hne : handles ≠ [] := by
      intro h0
      rw [h0] at hfl
      simp at hfl
    simp only [mrDrain]
    rw [if_neg (by simp only [List.isEmpty_iff]; exact hne)]
    set p := pick σ t handles with hp
    have hplen := pick_length σ t hne
    rw [← hp] at hplen
    have hlen1' : 1 ≤ (tree.set 0 (tree.getD 0 [] ++ p.1.data)).length := by
      rw [List.length_set]
      exact hlen1
    rw [ih (t + 1) p.2 (tree.set 0 (tree.getD 0 [] ++ p.1.data)) _ (by omega) hlen1']
    refine mval_of_coe_eq op e ha hc ?_
    have hT := Multiset.coe_eq_coe.mpr
      (flatten_set_getD_append_perm tree 0 p.1.data (by omega))
    have hH := Multiset.coe_eq_coe.mpr (handlesData_pick σ t hne)
    simp only [← Multiset.coe_add] at hT hH ⊢
    rw [hT, hH]
    abel

/-- C3 (amended): take the reducer to be the fold of an
associative-commutative operation `op` with unit `e` applied to its input
list (the canonical "associative and commutative" list reducer).  Then:
with `workerCount = 1`, for every `reduceBatch` and every nonempty input,
`map_reduce` returns exactly the fold of `op` over the full flattened
pipeline output (on empty input it returns `None` — see
`mapReduce_fold_claim_fails`); and with `workerCount ≥ 2` (the parallel
path, modelled for any window size ≥ 1) and `reduceBatch ≥ 2`, the parallel
`map_reduce` terminates — fuel `|flattened output| + 1` always suffices for
every completion schedule — and returns that same fold.  For
`reduceBatch = 1` the parallel path can run forever instead (see
`mapReducePar_rb_one_diverges`), which is why the claim's "every
reduceBatch ≥ 1" had to be weakened. -/
theorem mapReduce_fold_correct (functions : List (Stage M))
    (nworkers batchsize reduce_batch : Nat) (op : M → M → M) (e : M)
    (σ : Nat → Nat) (input : List M)
    (ha : ∀ a b c, op (op a b) c = op a (op b c))
    (hc : ∀ a b, op a b = op b a) (hid : ∀ a, op e a = a) :
    (input ≠ [] →
      (mapReduceSeqRun functions batchsize reduce_batch (mval op e) input).1 =
        some (mval op e (flatOut functions batchsize input))) ∧
    (2 ≤ reduce_batch → 1 ≤ nworkers →
      (mapReducePar functions nworkers batchsize reduce_batch (mval op e) σ
          ((flatOut functions batchsize input).length + 1) input).1 =
        some (mval op e (flatOut functions batchsize input))) := by
  constructor
  · intro hne
    exact mapReduceSeq_fold functions batchsize reduce_batch op e ha hc hid input hne
  · intro hrb hn
    simp only [mapReducePar]
    set tasks := grouper input batchsize with htk
    set primed := (tasks.take nworkers).map (parallel_process functions) with hpr
    have h1 : handlesData primed =
        ((tasks.take nworkers).map (pipeData functions)).flatten := by
      rw [hpr, handlesData, List.map_map]
      rfl
    have h2 : flatOut functions batchsize input =
        ((tasks.take nworkers).map (pipeData functions)).flatten ++
          ((tasks.drop nworkers).map (pipeData functions)).flatten := by
      rw [flatOut, ← htk, ← List.flatten_append, ← List.map_append,
        List.take_append_drop]
    have hne0 : tasks.drop nworkers ≠ [] → primed ≠ [] := by
      intro hd0 h0
      rw [hpr] at h0
      have h3 : tasks.take nworkers = [] := List.map_eq_nil_iff.mp h0
      have h4 := congrArg List.length h3
      rw [List.length_take] at h4
      simp only [List.length_nil] at h4
      rcases Nat.min_eq_zero_iff.mp h4 with h5 | h5
      · omega
      · have h6 : tasks = [] := List.eq_nil_of_length_eq_zero h5
        rw [h6] at hd0
        simp at hd0
    have hlev0 : ∀ h ∈ primed, h.level ≤ ([[]] : List (List M)).length := by
      intro h hm
      rw [hpr] at hm
      rcases List.mem_map.mp hm with ⟨b, _, rfl⟩
      show (0 : Nat) ≤ _
      omega
    have hfuel0 : (handlesData primed).length +
        ([[]] : List (List M)).flatten.length +
        (((tasks.drop nworkers).map (pipeData functions)).flatten).length + 1 ≤
        (flatOut functions batchsize input).length + 1 := by
      rw [h1, h2]
      simp
    obtain ⟨t2, hs2, tree2, log2, heq2, hl2, hval2⟩ :=
      mrMainLoop_correct functions op e ha hc hid reduce_batch hrb σ
        ((flatOut functions batchsize input).length + 1)
        (tasks.drop nworkers) 0 primed [[]]
        ((List.range primed.length).map (fun i => LogEntry.handleCount (i + 1)))
        hne0 (by simp) hlev0 hfuel0
    rw [heq2]
    show some (mval op e ((mrDrain σ hs2.length t2 hs2 tree2 log2).1.flatten)) =
      some (mval op e (flatOut functions batchsize input))
    rw [mrDrain_correct op e ha hc σ hs2.length t2 hs2 tree2 log2 rfl hl2, hval2]
    congr 2
    rw [h1, h2]
    simp

theorem mapReduce_fold_correct_witness :
    ((mapReduceSeqRun [idStage] 1 2 (mval Nat.add 0) [1, 2, 3]).1 =
      some (mval Nat.add 0 (flatOut [idStage] 1 [1, 2, 3]))) ∧
    ((mapReducePar [idStage] 2 1 2 (mval Nat.add 0) sched0
        ((flatOut [idStage] 1 [1, 2, 3]).length + 1) [1, 2, 3]).1 =
      some (mval Nat.add 0 (flatOut [idStage] 1 [1, 2, 3]))) := by
  have h := mapReduce_fold_correct [idStage] 2 1 2 Nat.add 0 sched0 [1, 2, 3]
    (fun a b c => Nat.add_assoc a b c) (fun a b => Nat.add_comm a b)
    (fun a => Nat.zero_add a)
  exact ⟨h.1 (by decide), h.2 (by decide) (by decide)⟩
